import Mathlib

/-!
Verification of the bounding-volume-hierarchy (BVH) spatial index of
alg-dat (src/alg-dat/datastructure/bounding_volume_hierarchies.hpp,
with the 2D bound math of src/alg-dat/dependent/bound2d.hpp).

Shallow embedding conventions:
  - the C++ scalar type real = float is modelled as the exact rationals;
  - size_t arithmetic is modelled as natural numbers, except where the
    source relies on unsigned wraparound, which is modelled explicitly
    (see usub below);
  - element handles (Element pointers) are modelled as natural numbers;
    the index never dereferences them;
  - std::partition is modelled as a stable partition (a valid
    implementation of its contract), std::nth_element as a full sort of
    the subrange by the comparator (likewise a valid implementation);
  - the recursive builder carries an explicit fuel bounding the
    recursion depth; the wrapper passes the range length, which always
    suffices because split points are strictly interior whenever the
    builder recurses.
-/

namespace AlgDat

/-- 2D vector over the rationals, modelling vec2_t of vec2.hpp. -/
structure vec2 where
  x : ℚ
  y : ℚ
deriving DecidableEq, Repr

namespace vec2

/-- Componentwise minimum, vec2_t::min. -/
def minv (a b : vec2) : vec2 := ⟨min a.x b.x, min a.y b.y⟩

/-- Componentwise maximum, vec2_t::max. -/
def maxv (a b : vec2) : vec2 := ⟨max a.x b.x, max a.y b.y⟩

/-- Componentwise addition, vec2_t::operator+. -/
def add (a b : vec2) : vec2 := ⟨a.x + b.x, a.y + b.y⟩

/-- Scalar multiplication, vec2_t::operator*. -/
def smul (a : vec2) (q : ℚ) : vec2 := ⟨a.x * q, a.y * q⟩

/-- Indexing, vec2_t::operator[]: index 0 is x, anything else is y. -/
def nth (a : vec2) (dim : ℕ) : ℚ := if dim = 0 then a.x else a.y

end vec2

/-- The largest finite value of the C++ type float (FLT_MAX), exactly. -/
def fltMax : ℚ := (2 ^ 24 - 1) * 2 ^ 104

/-- The smallest positive normal value of float (FLT_MIN), exactly.
Note that bound2_t's default constructor uses FLT_MIN, not -FLT_MAX. -/
def fltMin : ℚ := 1 / 2 ^ 126

/-- Axis-aligned 2D bound, modelling bound2_t of bound2d.hpp. -/
structure bound2 where
  min : vec2
  max : vec2
deriving DecidableEq, Repr

namespace bound2

/-- The default constructor bound2_t() : min(FLT_MAX), max(FLT_MIN). -/
def defaultBound : bound2 := ⟨⟨fltMax, fltMax⟩, ⟨fltMin, fltMin⟩⟩

instance : Inhabited bound2 := ⟨defaultBound⟩

/-- bound2_t(min, max): stores the componentwise min and max of the
two argument points. -/
def ofPoints (p q : vec2) : bound2 := ⟨vec2.minv p q, vec2.maxv p q⟩

/-- bound2_t::apply(bound): grow this bound to cover another bound.
This is the merge operation of the bounding-volume capability set. -/
def apply (b o : bound2) : bound2 := ⟨vec2.minv b.min o.min, vec2.maxv b.max o.max⟩

/-- bound2_t::apply(point): grow this bound to cover a point. -/
def apply_point (b : bound2) (p : vec2) : bound2 :=
  ⟨vec2.minv b.min p, vec2.maxv b.max p⟩

/-- bound2_t::max_dimension: the axis of maximum extent (0 = x, 1 = y),
x wins only when strictly larger. -/
def max_dimension (b : bound2) : ℕ :=
  if b.max.x - b.min.x > b.max.y - b.min.y then 0 else 1

/-- Helper max_property(bound, dim) = bound.max_property()[dim]. -/
def max_property (b : bound2) (dim : ℕ) : ℚ := b.max.nth dim

/-- Helper min_property(bound, dim) = bound.min_property()[dim]. -/
def min_property (b : bound2) (dim : ℕ) : ℚ := b.min.nth dim

/-- bound2_t::centroid(): (min + max) * 0.5. -/
def centroid (b : bound2) : vec2 := (b.min.add b.max).smul (1 / 2)

/-- bound2_t::centroid(dim): centroid()[dim]. -/
def centroid_dim (b : bound2) (dim : ℕ) : ℚ := b.centroid.nth dim

/-- bound2_t::surface_area(): (max.x - min.x) * (max.y - min.y). -/
def surface_area (b : bound2) : ℚ := (b.max.x - b.min.x) * (b.max.y - b.min.y)

/-- bound2_t::intersect: separating-axis test on both axes. -/
def intersect (b o : bound2) : Bool :=
  if b.min.x > o.max.x ∨ b.max.x < o.min.x then false
  else if b.min.y > o.max.y ∨ b.max.y < o.min.y then false
  else true

/-- Containment of bounds (outer covers inner), used to state and prove
query soundness; not a source operation. -/
def covers (outer inner : bound2) : Prop :=
  outer.min.x ≤ inner.min.x ∧ outer.min.y ≤ inner.min.y ∧
  inner.max.x ≤ outer.max.x ∧ inner.max.y ≤ outer.max.y

end bound2

/-- bvh_element_info: one input volume paired with one element handle. -/
structure bvh_element_info where
  bound : bound2
  element : ℕ
deriving DecidableEq, Repr

instance : Inhabited bvh_element_info := ⟨⟨bound2.defaultBound, 0⟩⟩

/-- bvh_build_mode. -/
inductive bvh_build_mode where
  | middle
  | equal_counts
  | surface_area_heuristic
deriving DecidableEq, Repr

/-- bvh_node: a leaf stores its bound and an (offset, count) slice of the
reordering buffer; an internal node stores its bound, split axis, cached
count and exactly two children (left/right pointers in the source). -/
inductive bvh_node where
  | leaf (bound : bound2) (offset : ℕ) (count : ℕ)
  | node (bound : bound2) (axis : ℕ) (count : ℕ) (left : bvh_node) (right : bvh_node)
deriving DecidableEq, Repr

namespace bvh_node

/-- The stored bound of a node. -/
def bound : bvh_node → bound2
  | leaf b _ _ => b
  | node b _ _ _ _ => b

/-- The stored count of a node (a leaf's element count, an internal
node's cached descendant count). -/
def count : bvh_node → ℕ
  | leaf _ _ c => c
  | node _ _ c _ _ => c

/-- All leaves of a tree, in left-to-right order, as
(bound, offset, count) triples. -/
def leavesOf : bvh_node → List (bound2 × ℕ × ℕ)
  | leaf b o c => [(b, o, c)]
  | node _ _ _ l r => leavesOf l ++ leavesOf r

/-- The (offset, count) spans of all leaves, in left-to-right order. -/
def spansOf : bvh_node → List (ℕ × ℕ)
  | leaf _ o c => [(o, c)]
  | node _ _ _ l r => spansOf l ++ spansOf r

/-- Total number of nodes: equals the number of allocate() calls the
builder performed to produce the tree (one per recursive_build call). -/
def numNodes : bvh_node → ℕ
  | leaf _ _ _ => 1
  | node _ _ _ l r => numNodes l + numNodes r + 1

/-- Number of leaf nodes. -/
def numLeaves : bvh_node → ℕ
  | leaf _ _ _ => 1
  | node _ _ _ l r => numLeaves l + numLeaves r

/-- Number of internal nodes. -/
def numInternal : bvh_node → ℕ
  | leaf _ _ _ => 0
  | node _ _ _ l r => numInternal l + numInternal r + 1

/-- Structural well-formedness established by the builder: every
internal node's bound is the merge of its children's bounds (the
bvh_node::node factory builds BoundingBox(left->bound, right->bound))
and its cached count is the sum of the children's counts. -/
def Wf : bvh_node → Prop
  | leaf _ _ _ => True
  | node b _ c l r =>
      b = bound2.apply l.bound r.bound ∧ c = l.count + r.count ∧ Wf l ∧ Wf r

end bvh_node

/-- Array access infos[i], with the default-constructed element_info as
the out-of-range value (such accesses are undefined behaviour in the
source and unreachable under the builder's preconditions). -/
def getInfo (infos : List bvh_element_info) (i : ℕ) : bvh_element_info :=
  infos.getD i default

/-- The half-open index range [s, e) of an array, as a list. -/
def seg (l : List bvh_element_info) (s e : ℕ) : List bvh_element_info :=
  (l.drop s).take (e - s)

/-- Replace the contents of the range [s, e) by the list m (the in-place
mutation pattern of std::partition / std::nth_element on a subrange). -/
def replaceSeg (l : List bvh_element_info) (s e : ℕ) (m : List bvh_element_info) :
    List bvh_element_info :=
  l.take s ++ m ++ l.drop e

/-- A valid result of std::partition: all elements satisfying the
predicate precede all that do not (modelled stably). -/
def stdPartition (p : bvh_element_info → Bool) (l : List bvh_element_info) :
    List bvh_element_info :=
  l.filter p ++ l.filter (fun a => !p a)

/-- Unsigned 64-bit subtraction a - b on size_t values, with wraparound
modulo 2 to the 64. -/
def usub (a b : ℕ) : ℕ := (a % 2 ^ 64 + (2 ^ 64 - b % 2 ^ 64)) % 2 ^ 64

/-- bvh_accelerator::max_elements_per_node, default value 255. -/
def max_elements_per_node : ℕ := 255

/-- bucket_info of the SAH strategy: count starts at 0 and the bound is
default-constructed (FLT_MAX / FLT_MIN, an inverted bound). -/
structure bucket_info where
  count : ℕ
  bounds : bound2
deriving DecidableEq, Repr

instance : Inhabited bucket_info := ⟨⟨0, bound2.defaultBound⟩⟩

/-- The SAH bucket index of an element bound: 12 buckets over the
centroid bound's extent on the split axis, truncated toward zero and
clamped so a top-boundary centroid (index 12) lands in bucket 11. -/
def bucketIndex (cb : bound2) (dim : ℕ) (b : bound2) : ℕ :=
  let ratio := (bound2.centroid_dim b dim - bound2.min_property cb dim) /
      (bound2.max_property cb dim - bound2.min_property cb dim)
  let location := (Int.floor ((12 : ℚ) * ratio)).toNat
  if location = 12 then 11 else location

/-- The binning loop of split_surface_area_heuristic: distribute each
element of the range into one of 12 buckets, accumulating the count and
merging the element bound into the bucket bound. -/
def sah_buckets (cb : bound2) (dim : ℕ) (recs : List bvh_element_info) :
    List bucket_info :=
  recs.foldl
    (fun bks r =>
      let loc := bucketIndex cb dim r.bound
      bks.set loc
        ⟨(bks.getD loc default).count + 1,
         bound2.apply (bks.getD loc default).bounds r.bound⟩)
    (List.replicate 12 default)

/-- cost_surface_area_heuristic: travel cost 0.125 plus the
count-weighted surface areas of the merged left and right bucket groups
(each accumulated from a default-constructed bucket_info), divided by
the surface area of the node's bound, times the unit test cost. -/
def cost_surface_area_heuristic (infos : List bucket_info) (bounds : bound2)
    (location : ℕ) : ℚ :=
  let info0 := (infos.take (location + 1)).foldl
    (fun acc b => ⟨acc.count + b.count, bound2.apply acc.bounds b.bounds⟩)
    (default : bucket_info)
  let info1 := (infos.drop (location + 1)).foldl
    (fun acc b => ⟨acc.count + b.count, bound2.apply acc.bounds b.bounds⟩)
    (default : bucket_info)
  1 / 8 + ((info0.count : ℚ) * info0.bounds.surface_area +
    (info1.count : ℚ) * info1.bounds.surface_area) / bounds.surface_area * 1

/-- The minimum-cost scan of split_surface_area_heuristic: start from
boundary 0, then try boundaries 1 through 10 (i < buckets_count - 1),
keeping the first minimum. Returns (min_cost, min_cost_location). -/
def sah_min (bks : List bucket_info) (bounds : bound2) : ℚ × ℕ :=
  (List.range' 1 10).foldl
    (fun mc i =>
      let c := cost_surface_area_heuristic bks bounds i
      if mc.1 > c then (c, i) else mc)
    (cost_surface_area_heuristic bks bounds 0, 0)

/-- split_equal_counts: mid = (start + end) >> 1, then std::nth_element
on the range by centroid on the split axis (modelled as a full sort of
the range, a valid nth_element outcome). Returns the mutated array and
mid. -/
def split_equal_counts (infos : List bvh_element_info) (_cb _bounds : bound2)
    (dim s e : ℕ) : List bvh_element_info × ℕ :=
  let mid := (s + e) / 2
  let sorted := (seg infos s e).mergeSort
    (fun a b => decide (bound2.centroid_dim a.bound dim ≤ bound2.centroid_dim b.bound dim))
  (replaceSeg infos s e sorted, mid)

/-- split_middle: partition the range around the centroid bound's
midpoint on the split axis; if every element lands on one side, fall
back to split_equal_counts on the (partitioned) array. -/
def split_middle (infos : List bvh_element_info) (cb bounds : bound2)
    (dim s e : ℕ) : List bvh_element_info × ℕ :=
  let mid_position := (bound2.min_property cb dim + bound2.max_property cb dim) * (1 / 2)
  let p := fun info => decide (bound2.centroid_dim info.bound dim < mid_position)
  let infos1 := replaceSeg infos s e (stdPartition p (seg infos s e))
  let mid := s + (seg infos s e).countP p
  if mid = s ∨ mid = e then split_equal_counts infos1 cb bounds dim s e
  else (infos1, mid)

/-- split_surface_area_heuristic. The small-range guard is the source's
(start - end <= 4) on size_t values, which wraps around for start < end;
then 12-bucket binning, the minimum-cost boundary scan, and the
split-versus-leaf decision: partition by bucket membership when
min_cost < leaf_cost or max_elements_per_node < leaf_cost, else return
start. -/
def split_surface_area_heuristic (infos : List bvh_element_info)
    (cb bounds : bound2) (dim s e : ℕ) : List bvh_element_info × ℕ :=
  if usub s e ≤ 4 then split_equal_counts infos cb bounds dim s e
  else
    let bks := sah_buckets cb dim (seg infos s e)
    let mc := sah_min bks bounds
    let leaf_cost := e - s
    if mc.1 < (leaf_cost : ℚ) ∨ max_elements_per_node < leaf_cost then
      let p := fun info => decide (bucketIndex cb dim info.bound ≤ mc.2)
      (replaceSeg infos s e (stdPartition p (seg infos s e)),
       s + (seg infos s e).countP p)
    else (infos, s)

/-- Split dispatch on the build mode. -/
def split (mode : bvh_build_mode) (infos : List bvh_element_info)
    (cb bounds : bound2) (dim s e : ℕ) : List bvh_element_info × ℕ :=
  match mode with
  | .middle => split_middle infos cb bounds dim s e
  | .equal_counts => split_equal_counts infos cb bounds dim s e
  | .surface_area_heuristic => split_surface_area_heuristic infos cb bounds dim s e

/-- The merged bound of the range: starts from a copy of the first
element's bound (BoundingBox(infos[start].bound)), then applies every
bound of the range (including index start again). -/
def boundsOfRange (infos : List bvh_element_info) (s e : ℕ) : bound2 :=
  (List.range' s (e - s)).foldl
    (fun b i => bound2.apply b (getInfo infos i).bound)
    (getInfo infos s).bound

/-- The centroid bound of the range: starts as the degenerate bound on
the first element's centroid, then absorbs every centroid of the
range. -/
def centroidBoundOfRange (infos : List bvh_element_info) (s e : ℕ) : bound2 :=
  (List.range' s (e - s)).foldl
    (fun b i => b.apply_point (getInfo infos i).bound.centroid)
    (bound2.ofPoints (getInfo infos s).bound.centroid (getInfo infos s).bound.centroid)

/-- The full result of a recursive_build call: the subtree, the mutated
element-info array, the appended reordering buffer, and the allocator
cursor after the call (each call performs exactly one allocate()). -/
structure BuildResult where
  tree : bvh_node
  infos : List bvh_element_info
  order : List ℕ
  alloc : ℕ
deriving Repr

/-- bvh_accelerator::recursive_build, with an explicit fuel parameter
bounding the recursion depth. The wrapper passes e - s, which always
suffices since both recursive calls are on strictly shorter ranges; the
fuel-exhausted case is unreachable under that discipline. -/
def recursive_build (mode : bvh_build_mode) :
    ℕ → List bvh_element_info → ℕ → ℕ → List ℕ → ℕ → BuildResult
  | 0, infos, s, e, acc, al =>
      ⟨.leaf (boundsOfRange infos s e) acc.length (e - s), infos,
        acc ++ (seg infos s e).map (fun r => r.element), al + 1⟩
  | fuel + 1, infos, s, e, acc, al =>
      let bounds := boundsOfRange infos s e
      if e - s = 1 then
        ⟨.leaf bounds acc.length 1, infos,
          acc ++ [(getInfo infos s).element], al + 1⟩
      else
        let cb := centroidBoundOfRange infos s e
        let dim := cb.max_dimension
        if bound2.max_property cb dim = bound2.min_property cb dim then
          ⟨.leaf bounds acc.length (e - s), infos,
            acc ++ (seg infos s e).map (fun r => r.element), al + 1⟩
        else
          let sp := split mode infos cb bounds dim s e
          let mid := sp.2
          if mid = s ∨ mid = e then
            ⟨.leaf bounds acc.length (e - s), sp.1,
              acc ++ (seg sp.1 s e).map (fun r => r.element), al + 1⟩
          else
            let lres := recursive_build mode fuel sp.1 s mid acc (al + 1)
            let rres := recursive_build mode fuel lres.infos mid e lres.order lres.alloc
            ⟨.node (bound2.apply lres.tree.bound rres.tree.bound) dim
                (lres.tree.count + rres.tree.count) lres.tree rres.tree,
              rres.infos, rres.order, rres.alloc⟩

/-- The bvh_accelerator constructor body: build the element-info array
from the first min(|bounds|, |elements|) pairs, then run the recursive
builder over the whole array with an empty reordering buffer and a fresh
allocator cursor. -/
def bvh_build (bounds : List bound2) (elements : List ℕ)
    (mode : bvh_build_mode) : BuildResult :=
  let infos := (bounds.zip elements).map (fun p => ⟨p.1, p.2⟩)
  recursive_build mode infos.length infos 0 infos.length [] 0

/-- The persistent state of a bvh_accelerator: the root node and the
reordered element pool. -/
structure bvh_accelerator where
  root : bvh_node
  elements_pool : List ℕ
deriving Repr

/-- The bvh_accelerator constructor. -/
def bvh_accelerator.build (bounds : List bound2) (elements : List ℕ)
    (mode : bvh_build_mode) : bvh_accelerator :=
  let r := bvh_build bounds elements mode
  ⟨r.tree, r.order⟩

/-- bvh_accelerator::recursive_enumerate_contacts: prune a subtree whose
bound does not intersect the query, emit the (offset, count) of an
intersecting leaf, otherwise recurse left then right. -/
def recursive_enumerate_contacts : bvh_node → bound2 → List (ℕ × ℕ)
  | .leaf b o c, q => if b.intersect q then [(o, c)] else []
  | .node b _ _ l r, q =>
      if b.intersect q then
        recursive_enumerate_contacts l q ++ recursive_enumerate_contacts r q
      else []

/-- bvh_accelerator::enumerate_contacts. -/
def enumerate_contacts (a : bvh_accelerator) (q : bound2) : List (ℕ × ℕ) :=
  recursive_enumerate_contacts a.root q

/-- The merge of a list of bounds with no seed: the empty list gives the
default bound, otherwise the fold of apply from the head. This is the
specification-side notion of the merged bound of a set of volumes. -/
def merge_bounds : List bound2 → bound2
  | [] => bound2.defaultBound
  | b :: r => r.foldl bound2.apply b

/-- The spans (o₁, c₁), (o₂, c₂), ... tile the interval [s, e): each
span starts where the previous ended, every count is positive, and the
last span ends at e. -/
def Tiles : List (ℕ × ℕ) → ℕ → ℕ → Prop
  | [], s, e => s = e
  | oc :: rest, s, e => oc.1 = s ∧ 0 < oc.2 ∧ Tiles rest (s + oc.2) e

/-! ### Algebra of bound merging -/

theorem apply_comm (a b : bound2) : bound2.apply a b = bound2.apply b a := by
  simp only [bound2.apply, vec2.minv, vec2.maxv]
  congr 1 <;> · congr 1 <;> first | exact min_comm _ _ | exact max_comm _ _

theorem apply_assoc (a b c : bound2) :
    bound2.apply (bound2.apply a b) c = bound2.apply a (bound2.apply b c) := by
  simp only [bound2.apply, vec2.minv, vec2.maxv]
  congr 1 <;> · congr 1 <;> first | exact min_assoc _ _ _ | exact max_assoc _ _ _

theorem apply_self (a : bound2) : bound2.apply a a = a := by
  simp only [bound2.apply, vec2.minv, vec2.maxv, min_self, max_self]

theorem apply_right_comm : RightCommutative bound2.apply := by
  constructor
  intro b a a'
  rw [apply_assoc, apply_assoc, apply_comm a a']

theorem foldl_apply_perm {l₁ l₂ : List bound2} (h : l₁.Perm l₂) (b : bound2) :
    l₁.foldl bound2.apply b = l₂.foldl bound2.apply b :=
  @List.Perm.foldl_eq _ _ _ _ _ apply_right_comm h b

theorem merge_bounds_perm {l₁ l₂ : List bound2} (h : l₁.Perm l₂) :
    merge_bounds l₁ = merge_bounds l₂ := by
  induction h with
  | nil => rfl
  | cons x h ih =>
      simp only [merge_bounds]
      exact foldl_apply_perm h x
  | swap x y l =>
      simp only [merge_bounds, List.foldl_cons]
      rw [apply_comm]
  | trans h₁ h₂ ih₁ ih₂ => exact ih₁.trans ih₂

theorem foldl_apply_pull (l : List bound2) (a c : bound2) :
    l.foldl bound2.apply (bound2.apply a c) =
      bound2.apply a (l.foldl bound2.apply c) := by
  induction l generalizing c with
  | nil => rfl
  | cons d l ih =>
      simp only [List.foldl_cons]
      rw [apply_assoc, ih]

theorem merge_bounds_append {A B : List bound2} (hA : A ≠ []) (hB : B ≠ []) :
    merge_bounds (A ++ B) = bound2.apply (merge_bounds A) (merge_bounds B) := by
  obtain ⟨a, A', rfl⟩ := List.exists_cons_of_ne_nil hA
  obtain ⟨b, B', rfl⟩ := List.exists_cons_of_ne_nil hB
  simp only [merge_bounds, List.cons_append, List.foldl_cons, List.foldl_append]
  rw [← foldl_apply_pull B' (List.foldl bound2.apply a A') b]

/-! ### Containment and intersection monotonicity -/

theorem covers_refl (a : bound2) : bound2.covers a a := by
  simp [bound2.covers]

theorem covers_trans {a b c : bound2} (h₁ : bound2.covers a b)
    (h₂ : bound2.covers b c) : bound2.covers a c := by
  obtain ⟨p₁, p₂, p₃, p₄⟩ := h₁
  obtain ⟨q₁, q₂, q₃, q₄⟩ := h₂
  exact ⟨p₁.trans q₁, p₂.trans q₂, q₃.trans p₃, q₄.trans p₄⟩

theorem covers_apply_left (a b : bound2) : bound2.covers (bound2.apply a b) a := by
  simp [bound2.covers, bound2.apply, vec2.minv, vec2.maxv]

theorem covers_apply_right (a b : bound2) : bound2.covers (bound2.apply a b) b := by
  simp [bound2.covers, bound2.apply, vec2.minv, vec2.maxv]

theorem covers_foldl_init (l : List bound2) (a : bound2) :
    bound2.covers (l.foldl bound2.apply a) a := by
  induction l generalizing a with
  | nil => exact covers_refl a
  | cons c l ih =>
      simp only [List.foldl_cons]
      exact covers_trans (ih (bound2.apply a c)) (covers_apply_left a c)

theorem covers_foldl_mem {l : List bound2} {x : bound2} (hx : x ∈ l) (a : bound2) :
    bound2.covers (l.foldl bound2.apply a) x := by
  induction l generalizing a with
  | nil => cases hx
  | cons c l ih =>
      simp only [List.foldl_cons]
      rcases List.mem_cons.mp hx with rfl | hx
      · exact covers_trans (covers_foldl_init l (bound2.apply a x))
          (covers_apply_right a x)
      · exact ih hx (bound2.apply a c)

theorem covers_merge_mem {l : List bound2} {x : bound2} (hx : x ∈ l) :
    bound2.covers (merge_bounds l) x := by
  cases l with
  | nil => cases hx
  | cons b r =>
      simp only [merge_bounds]
      rcases List.mem_cons.mp hx with rfl | hx
      · exact covers_foldl_init r x
      · exact covers_foldl_mem hx b

theorem intersect_mono {outer inner q : bound2} (hc : bound2.covers outer inner)
    (hi : inner.intersect q = true) : outer.intersect q = true := by
  obtain ⟨h₁, h₂, h₃, h₄⟩ := hc
  simp only [bound2.intersect] at hi ⊢
  by_contra hcon
  rcases Decidable.em (inner.min.x > q.max.x ∨ inner.max.x < q.min.x) with hA | hA
  · simp [if_pos hA] at hi
  · rcases Decidable.em (inner.min.y > q.max.y ∨ inner.max.y < q.min.y) with hB | hB
    · simp [if_neg hA, if_pos hB] at hi
    · push_neg at hA hB
      have oA : ¬(outer.min.x > q.max.x ∨ outer.max.x < q.min.x) := by
        push_neg
        exact ⟨h₁.trans hA.1, le_trans hA.2 h₃⟩
      have oB : ¬(outer.min.y > q.max.y ∨ outer.max.y < q.min.y) := by
        push_neg
        exact ⟨h₂.trans hB.1, le_trans hB.2 h₄⟩
      simp [if_neg oA, if_neg oB] at hcon

/-! ### Ranges of the element-info array -/

theorem seg_length {l : List bvh_element_info} {s e : ℕ} (he : e ≤ l.length) :
    (seg l s e).length = e - s := by
  simp only [seg, List.length_take, List.length_drop]
  omega

theorem seg_ne_nil {l : List bvh_element_info} {s e : ℕ} (hs : s < e)
    (he : e ≤ l.length) : seg l s e ≠ [] := by
  have := seg_length (s := s) he
  intro h
  rw [h] at this
  simp at this
  omega

theorem seg_append {l : List bvh_element_info} {s m e : ℕ} (h₁ : s ≤ m)
    (h₂ : m ≤ e) : seg l s e = seg l s m ++ seg l m e := by
  simp only [seg]
  have hes : e - s = (m - s) + (e - m) := by omega
  have hsm : s + (m - s) = m := by omega
  rw [hes, List.take_add, List.drop_drop, hsm]

theorem getD_seg {l : List bvh_element_info} {s e i : ℕ} (hsi : s ≤ i)
    (hie : i < e) (he : e ≤ l.length) (d : bvh_element_info) :
    (seg l s e).getD (i - s) d = l.getD i d := by
  rw [List.getD_eq_getElem?_getD, List.getD_eq_getElem?_getD]
  simp only [seg, List.getElem?_take, List.getElem?_drop]
  rw [if_pos (by omega)]
  have hadd : s + (i - s) = i := by omega
  rw [hadd]

theorem seg_map_range' {l : List bvh_element_info} {s e : ℕ} (he : e ≤ l.length) :
    (List.range' s (e - s)).map (getInfo l) = seg l s e := by
  rcases le_or_lt e s with h | h
  · have h0 : e - s = 0 := by omega
    simp [h0, seg]
  · apply List.ext_getElem
    · simp [List.length_range', seg_length he]
    · intro i h₁ h₂
      simp only [List.getElem_map, List.getElem_range', one_mul]
      have hi : i < e - s := by
        rw [seg_length he] at h₂
        exact h₂
      have hlt : s + i < l.length := by omega
      simp only [getInfo]
      rw [List.getD_eq_getElem _ _ hlt]
      simp only [seg, List.getElem_take, List.getElem_drop]

theorem seg_singleton {l : List bvh_element_info} {s : ℕ} (hs : s < l.length) :
    seg l s (s + 1) = [getInfo l s] := by
  simp only [seg]
  have h1 : s + 1 - s = 1 := by omega
  rw [h1, List.drop_eq_getElem_cons hs, List.take_succ_cons, List.take_zero]
  simp only [getInfo]
  rw [List.getD_eq_getElem _ _ hs]

theorem length_replaceSeg {l m : List bvh_element_info} {s e : ℕ}
    (hm : m.length = e - s) (hse : s ≤ e) (he : e ≤ l.length) :
    (replaceSeg l s e m).length = l.length := by
  simp only [replaceSeg, List.length_append, List.length_take, List.length_drop]
  omega

theorem take_replaceSeg {l m : List bvh_element_info} {s e : ℕ}
    (hse : s ≤ e) (he : e ≤ l.length) :
    (replaceSeg l s e m).take s = l.take s := by
  simp only [replaceSeg, List.append_assoc]
  have hlen : (l.take s).length = s := by
    simp only [List.length_take]
    omega
  rw [List.take_left' hlen]

theorem drop_replaceSeg {l m : List bvh_element_info} {s e : ℕ}
    (hm : m.length = e - s) (hse : s ≤ e) (he : e ≤ l.length) :
    (replaceSeg l s e m).drop e = l.drop e := by
  simp only [replaceSeg, ← List.append_assoc]
  have hlen : (l.take s ++ m).length = e := by
    simp only [List.length_append, List.length_take]
    omega
  rw [List.drop_left' hlen]

theorem seg_replaceSeg {l m : List bvh_element_info} {s e : ℕ}
    (hm : m.length = e - s) (hse : s ≤ e) (he : e ≤ l.length) :
    seg (replaceSeg l s e m) s e = m := by
  simp only [seg, replaceSeg, List.append_assoc]
  have hlen : (l.take s).length = s := by
    simp only [List.length_take]
    omega
  rw [List.drop_left' hlen, List.take_left' hm]

theorem seg_eq_of_take_eq {l l' : List bvh_element_info} {s e m : ℕ}
    (h : l.take m = l'.take m) (he : e ≤ m) :
    seg l s e = seg l' s e := by
  simp only [seg]
  have h₁ : (l.take m).drop s = (l'.take m).drop s := by rw [h]
  rw [List.drop_take, List.drop_take] at h₁
  have h₂ : (l.drop s).take (m - s) = (l'.drop s).take (m - s) := h₁
  calc (l.drop s).take (e - s) = ((l.drop s).take (m - s)).take (e - s) := by
        rw [List.take_take, min_eq_left (by omega)]
    _ = ((l'.drop s).take (m - s)).take (e - s) := by rw [h₂]
    _ = (l'.drop s).take (e - s) := by rw [List.take_take, min_eq_left (by omega)]

theorem seg_eq_of_drop_eq {l l' : List bvh_element_info} {s e m : ℕ}
    (h : l.drop m = l'.drop m) (hm : m ≤ s) :
    seg l s e = seg l' s e := by
  simp only [seg]
  have h₁ : (l.drop m).drop (s - m) = (l'.drop m).drop (s - m) := by rw [h]
  rw [List.drop_drop, List.drop_drop] at h₁
  have hms : m + (s - m) = s := by omega
  rw [hms] at h₁
  rw [h₁]

theorem take_eq_of_take_eq {l l' : List bvh_element_info} {s m : ℕ}
    (h : l.take m = l'.take m) (hs : s ≤ m) :
    l.take s = l'.take s := by
  have h₁ : (l.take m).take s = (l'.take m).take s := by rw [h]
  rwa [List.take_take, List.take_take, min_eq_left hs] at h₁

theorem drop_eq_of_drop_eq {l l' : List bvh_element_info} {e m : ℕ}
    (h : l.drop m = l'.drop m) (hm : m ≤ e) :
    l.drop e = l'.drop e := by
  have h₁ : (l.drop m).drop (e - m) = (l'.drop m).drop (e - m) := by rw [h]
  rw [List.drop_drop, List.drop_drop] at h₁
  have hme : m + (e - m) = e := by omega
  rwa [hme] at h₁

/-! ### Tiling of leaf spans -/

theorem Tiles_append {A B : List (ℕ × ℕ)} {s m e : ℕ} (hA : Tiles A s m)
    (hB : Tiles B m e) : Tiles (A ++ B) s e := by
  induction A generalizing s with
  | nil =>
      simp only [Tiles] at hA
      subst hA
      simpa using hB
  | cons oc A ih =>
      obtain ⟨h₁, h₂, h₃⟩ := hA
      exact ⟨h₁, h₂, ih h₃⟩

theorem Tiles_end_ge {A : List (ℕ × ℕ)} {s e : ℕ} (h : Tiles A s e) : s ≤ e := by
  induction A generalizing s with
  | nil => simp only [Tiles] at h; omega
  | cons x A ih =>
      obtain ⟨h₁, h₂, h₃⟩ := h
      have := ih h₃
      omega

theorem Tiles_mem_bounds {A : List (ℕ × ℕ)} {s e : ℕ} (h : Tiles A s e)
    {oc : ℕ × ℕ} (hm : oc ∈ A) : s ≤ oc.1 ∧ oc.1 + oc.2 ≤ e := by
  induction A generalizing s with
  | nil => cases hm
  | cons x A ih =>
      obtain ⟨h₁, h₂, h₃⟩ := h
      rcases List.mem_cons.mp hm with rfl | hm
      · have := Tiles_end_ge h₃
        omega
      · have := ih h₃ hm
        omega

theorem Tiles_cover {A : List (ℕ × ℕ)} {s e p : ℕ} (h : Tiles A s e)
    (hp₁ : s ≤ p) (hp₂ : p < e) : ∃ oc ∈ A, oc.1 ≤ p ∧ p < oc.1 + oc.2 := by
  induction A generalizing s with
  | nil => simp only [Tiles] at h; omega
  | cons x A ih =>
      obtain ⟨h₁, h₂, h₃⟩ := h
      rcases Nat.lt_or_ge p (s + x.2) with hlt | hge
      · exact ⟨x, List.mem_cons_self _ _, by omega⟩
      · obtain ⟨oc, hmem, hoc⟩ := ih h₃ hge
        exact ⟨oc, List.mem_cons_of_mem _ hmem, hoc⟩

theorem Tiles_join {A : List (ℕ × ℕ)} {s e : ℕ} (h : Tiles A s e)
    (pool : List ℕ) (he : e ≤ pool.length) :
    A.flatMap (fun oc => (pool.drop oc.1).take oc.2) =
      (pool.drop s).take (e - s) := by
  induction A generalizing s with
  | nil =>
      simp only [Tiles] at h
      subst h
      simp
  | cons x A ih =>
      obtain ⟨h₁, h₂, h₃⟩ := h
      subst h₁
      have hse : x.1 + x.2 ≤ e := by
        have := Tiles_end_ge h₃
        omega
      simp only [List.flatMap_cons, ih h₃]
      have hsplit : e - x.1 = x.2 + (e - (x.1 + x.2)) := by omega
      rw [hsplit, List.take_add, List.drop_drop]

/-! ### Specifications of the split strategies -/

theorem stdPartition_perm (p : bvh_element_info → Bool)
    (l : List bvh_element_info) : (stdPartition p l).Perm l :=
  List.filter_append_perm p l

/-- The common contract of every split strategy: the array is permuted
only inside [s, e) and the returned index lies in [s, e]. -/
def SplitOk (infos : List bvh_element_info) (s e : ℕ)
    (res : List bvh_element_info × ℕ) : Prop :=
  res.1.length = infos.length ∧ res.1.take s = infos.take s ∧
  res.1.drop e = infos.drop e ∧ (seg res.1 s e).Perm (seg infos s e) ∧
  s ≤ res.2 ∧ res.2 ≤ e

theorem splitOk_of_replaceSeg {infos m : List bvh_element_info} {s e mid : ℕ}
    (hs : s < e) (he : e ≤ infos.length) (hperm : m.Perm (seg infos s e))
    (h₁ : s ≤ mid) (h₂ : mid ≤ e) :
    SplitOk infos s e (replaceSeg infos s e m, mid) := by
  have hm : m.length = e - s := by
    rw [hperm.length_eq, seg_length he]
  have hse : s ≤ e := le_of_lt hs
  refine ⟨length_replaceSeg hm hse he, take_replaceSeg hse he,
    drop_replaceSeg hm hse he, ?_, h₁, h₂⟩
  rw [seg_replaceSeg hm hse he]
  exact hperm

theorem SplitOk.comp {infos i₁ : List bvh_element_info} {s e m₁ : ℕ}
    {res : List bvh_element_info × ℕ} (h₁ : SplitOk infos s e (i₁, m₁))
    (h₂ : SplitOk i₁ s e res) : SplitOk infos s e res := by
  obtain ⟨a₁, a₂, a₃, a₄, _, _⟩ := h₁
  obtain ⟨b₁, b₂, b₃, b₄, b₅, b₆⟩ := h₂
  exact ⟨b₁.trans a₁, b₂.trans a₂, b₃.trans a₃, b₄.trans a₄, b₅, b₆⟩

theorem split_equal_counts_ok {infos : List bvh_element_info}
    {cb bounds : bound2} {dim s e : ℕ} (hs : s < e) (he : e ≤ infos.length) :
    SplitOk infos s e (split_equal_counts infos cb bounds dim s e) := by
  apply splitOk_of_replaceSeg hs he
  · exact List.mergeSort_perm _ _
  · omega
  · omega

theorem split_middle_ok {infos : List bvh_element_info}
    {cb bounds : bound2} {dim s e : ℕ} (hs : s < e) (he : e ≤ infos.length) :
    SplitOk infos s e (split_middle infos cb bounds dim s e) := by
  unfold split_middle
  set p : bvh_element_info → Bool :=
    fun info => decide (bound2.centroid_dim info.bound dim <
      (bound2.min_property cb dim + bound2.max_property cb dim) * (1 / 2)) with hp
  have hcount : (seg infos s e).countP p ≤ e - s := by
    calc (seg infos s e).countP p ≤ (seg infos s e).length :=
          List.countP_le_length p
      _ = e - s := seg_length he
  have h₁ : SplitOk infos s e
      (replaceSeg infos s e (stdPartition p (seg infos s e)),
        s + (seg infos s e).countP p) := by
    apply splitOk_of_replaceSeg hs he (stdPartition_perm p _)
    · omega
    · omega
  by_cases hdeg : s + (seg infos s e).countP p = s ∨
      s + (seg infos s e).countP p = e
  · rw [if_pos hdeg]
    exact SplitOk.comp h₁
      (@split_equal_counts_ok _ cb bounds dim s e hs (by rw [h₁.1]; exact he))
  · rw [if_neg hdeg]
    exact h₁

theorem split_surface_area_heuristic_ok {infos : List bvh_element_info}
    {cb bounds : bound2} {dim s e : ℕ} (hs : s < e) (he : e ≤ infos.length) :
    SplitOk infos s e (split_surface_area_heuristic infos cb bounds dim s e) := by
  unfold split_surface_area_heuristic
  by_cases hguard : usub s e ≤ 4
  · rw [if_pos hguard]
    exact @split_equal_counts_ok infos cb bounds dim s e hs he
  · rw [if_neg hguard]
    set mc := sah_min (sah_buckets cb dim (seg infos s e)) bounds with hmc
    by_cases hcond : mc.1 < ((e - s : ℕ) : ℚ) ∨ max_elements_per_node < e - s
    · rw [if_pos hcond]
      set q : bvh_element_info → Bool :=
        fun info => decide (bucketIndex cb dim info.bound ≤ mc.2) with hq
      have hcount : (seg infos s e).countP q ≤ e - s := by
        calc (seg infos s e).countP q ≤ (seg infos s e).length :=
              List.countP_le_length q
          _ = e - s := seg_length he
      apply splitOk_of_replaceSeg hs he (stdPartition_perm q _)
      · omega
      · omega
    · rw [if_neg hcond]
      exact ⟨rfl, rfl, rfl, List.Perm.refl _, le_refl s, le_of_lt hs⟩

theorem split_ok {mode : bvh_build_mode} {infos : List bvh_element_info}
    {cb bounds : bound2} {dim s e : ℕ} (hs : s < e) (he : e ≤ infos.length) :
    SplitOk infos s e (split mode infos cb bounds dim s e) := by
  cases mode with
  | middle => exact @split_middle_ok infos cb bounds dim s e hs he
  | equal_counts => exact @split_equal_counts_ok infos cb bounds dim s e hs he
  | surface_area_heuristic =>
      exact @split_surface_area_heuristic_ok infos cb bounds dim s e hs he

/-! ### The merged bound of a built range -/

theorem seg_head {l : List bvh_element_info} {s e : ℕ} (hs : s < e)
    (he : e ≤ l.length) :
    ∃ rest, seg l s e = getInfo l s :: rest := by
  have hsl : s < l.length := by omega
  have h1 : 1 ≤ e - s := by omega
  refine ⟨(l.drop (s + 1)).take (e - s - 1), ?_⟩
  simp only [seg]
  rw [List.drop_eq_getElem_cons hsl]
  have h2 : e - s = (e - s - 1) + 1 := by omega
  rw [h2, List.take_succ_cons]
  simp only [getInfo]
  rw [List.getD_eq_getElem _ _ hsl]
  have h3 : e - s - 1 + 1 - 1 = e - s - 1 := by omega
  rw [h3]

theorem boundsOfRange_eq_merge {infos : List bvh_element_info} {s e : ℕ}
    (hs : s < e) (he : e ≤ infos.length) :
    boundsOfRange infos s e =
      merge_bounds ((seg infos s e).map (fun r => r.bound)) := by
  obtain ⟨rest, hseg⟩ := seg_head hs he
  unfold boundsOfRange
  rw [← List.foldl_map (getInfo infos) (fun b r => bound2.apply b r.bound),
    seg_map_range' he, hseg]
  simp only [List.foldl_cons, List.map_cons, merge_bounds, List.foldl_map]
  rw [apply_self]

/-! ### Structural facts about trees -/

theorem spansOf_eq_map {t : bvh_node} :
    t.spansOf = t.leavesOf.map (fun x => x.2) := by
  induction t with
  | leaf b o c => rfl
  | node b a c l r ihl ihr =>
      simp only [bvh_node.spansOf, bvh_node.leavesOf, List.map_append, ihl, ihr]

theorem numLeaves_pos (t : bvh_node) : 0 < t.numLeaves := by
  induction t with
  | leaf b o c => simp [bvh_node.numLeaves]
  | node b a c l r ihl ihr =>
      simp only [bvh_node.numLeaves]
      omega

theorem numInternal_eq_numLeaves_sub_one (t : bvh_node) :
    t.numInternal = t.numLeaves - 1 := by
  induction t with
  | leaf b o c => rfl
  | node b a c l r ihl ihr =>
      have hl := numLeaves_pos l
      have hr := numLeaves_pos r
      simp only [bvh_node.numInternal, bvh_node.numLeaves, ihl, ihr]
      omega

theorem numNodes_eq (t : bvh_node) :
    t.numNodes = t.numLeaves + t.numInternal := by
  induction t with
  | leaf b o c => rfl
  | node b a c l r ihl ihr =>
      simp only [bvh_node.numNodes, bvh_node.numLeaves, bvh_node.numInternal,
        ihl, ihr]
      omega

theorem wf_covers_leaf {t : bvh_node} (hw : t.Wf) {x : bound2 × ℕ × ℕ}
    (hx : x ∈ t.leavesOf) : bound2.covers t.bound x.1 := by
  induction t with
  | leaf b o c =>
      simp only [bvh_node.leavesOf, List.mem_singleton] at hx
      subst hx
      exact covers_refl _
  | node b a c l r ihl ihr =>
      obtain ⟨hb, _, hwl, hwr⟩ := hw
      simp only [bvh_node.leavesOf, List.mem_append] at hx
      rcases hx with hx | hx
      · exact covers_trans (hb ▸ covers_apply_left l.bound r.bound) (ihl hwl hx)
      · exact covers_trans (hb ▸ covers_apply_right l.bound r.bound) (ihr hwr hx)

theorem mem_enumerate_of_leaf {t : bvh_node} {q : bound2} (hw : t.Wf)
    {x : bound2 × ℕ × ℕ} (hx : x ∈ t.leavesOf)
    (hq : x.1.intersect q = true) :
    x.2 ∈ recursive_enumerate_contacts t q := by
  induction t with
  | leaf b o c =>
      simp only [bvh_node.leavesOf, List.mem_singleton] at hx
      subst hx
      simp only [recursive_enumerate_contacts, hq, if_true, List.mem_singleton]
  | node b a c l r ihl ihr =>
      obtain ⟨hb, _, hwl, hwr⟩ := hw
      have hcov : bound2.covers b x.1 :=
        wf_covers_leaf (t := .node b a c l r) ⟨hb, ‹_›, hwl, hwr⟩ hx
      have hbq : b.intersect q = true := intersect_mono hcov hq
      simp only [bvh_node.leavesOf, List.mem_append] at hx
      simp only [recursive_enumerate_contacts, hbq, if_true, List.mem_append]
      rcases hx with hx | hx
      · exact Or.inl (ihl hwl hx)
      · exact Or.inr (ihr hwr hx)

/-! ### The build invariant -/

/-- Everything recursive_build guarantees for a call over [s, e) with an
accumulator of length s: the array is permuted only inside the range,
the reordering buffer grows by exactly the elements of the final range
slice, the subtree's leaf spans tile [s, e), every leaf's bound is the
merge of the volumes of its final slice, internal nodes are
well-formed, and the allocator advances by at most 2(e-s) - 1. -/
structure BuildInv (infos : List bvh_element_info) (s e : ℕ) (acc : List ℕ)
    (al : ℕ) (out : BuildResult) : Prop where
  len_eq : out.infos.length = infos.length
  take_eq : out.infos.take s = infos.take s
  drop_eq : out.infos.drop e = infos.drop e
  seg_perm : (seg out.infos s e).Perm (seg infos s e)
  order_eq : out.order = acc ++ (seg out.infos s e).map (fun r => r.element)
  count_eq : out.tree.count = e - s
  alloc_le : out.alloc ≤ al + (2 * (e - s) - 1)
  spans_tile : Tiles out.tree.spansOf s e
  leaf_bound : ∀ x ∈ out.tree.leavesOf,
      x.1 = merge_bounds
        ((seg out.infos x.2.1 (x.2.1 + x.2.2)).map (fun r => r.bound))
  wf : out.tree.Wf
  root_bound : out.tree.bound =
      merge_bounds ((seg out.infos s e).map (fun r => r.bound))

theorem buildInv_leaf {infos infos' : List bvh_element_info} {s e : ℕ}
    {acc delta : List ℕ} {al cnt : ℕ}
    (hs : s < e) (he : e ≤ infos.length) (hacc : acc.length = s)
    (hlen : infos'.length = infos.length)
    (htake : infos'.take s = infos.take s)
    (hdrop : infos'.drop e = infos.drop e)
    (hperm : (seg infos' s e).Perm (seg infos s e))
    (hcnt : cnt = e - s)
    (hdelta : delta = (seg infos' s e).map (fun r => r.element)) :
    BuildInv infos s e acc al
      ⟨.leaf (boundsOfRange infos s e) acc.length cnt, infos',
        acc ++ delta, al + 1⟩ := by
  subst hcnt hdelta
  have hmerge : boundsOfRange infos s e =
      merge_bounds ((seg infos' s e).map (fun r => r.bound)) := by
    rw [boundsOfRange_eq_merge hs he]
    exact (merge_bounds_perm (hperm.map (fun r => r.bound))).symm
  refine ⟨hlen, htake, hdrop, hperm, rfl, rfl, ?_, ?_, ?_, trivial, ?_⟩
  · show al + 1 ≤ al + (2 * (e - s) - 1)
    omega
  · exact ⟨hacc, by omega, by show s + (e - s) = e; omega⟩
  · intro x hx
    simp only [bvh_node.leavesOf, List.mem_singleton] at hx
    subst hx
    simp only [hacc]
    have hse : s + (e - s) = e := by omega
    rw [hse]
    exact hmerge
  · exact hmerge

theorem build_inv (mode : bvh_build_mode) :
    ∀ fuel infos s e acc al, e - s ≤ fuel → s < e → e ≤ infos.length →
      acc.length = s →
      BuildInv infos s e acc al (recursive_build mode fuel infos s e acc al) := by
  intro fuel
  induction fuel with
  | zero =>
      intro infos s e acc al hf hs he hacc
      omega
  | succ fuel ih =>
      intro infos s e acc al hf hs he hacc
      simp only [recursive_build]
      by_cases h1 : e - s = 1
      · rw [if_pos h1]
        have he1 : e = s + 1 := by omega
        have hsl : s < infos.length := by omega
        have hseg1 : seg infos s e = [getInfo infos s] := by
          rw [he1]
          exact seg_singleton hsl
        refine buildInv_leaf hs he hacc rfl rfl rfl (List.Perm.refl _) h1.symm ?_
        rw [hseg1]
        rfl
      · rw [if_neg h1]
        by_cases h2 : bound2.max_property (centroidBoundOfRange infos s e)
            (centroidBoundOfRange infos s e).max_dimension =
          bound2.min_property (centroidBoundOfRange infos s e)
            (centroidBoundOfRange infos s e).max_dimension
        · rw [if_pos h2]
          exact buildInv_leaf hs he hacc rfl rfl rfl (List.Perm.refl _) rfl rfl
        · rw [if_neg h2]
          have hsp := @split_ok mode infos (centroidBoundOfRange infos s e)
            (boundsOfRange infos s e)
            (centroidBoundOfRange infos s e).max_dimension s e hs he
          obtain ⟨sp_len, sp_take, sp_drop, sp_perm, sp_ge, sp_le⟩ := hsp
          by_cases h3 : (split mode infos (centroidBoundOfRange infos s e)
              (boundsOfRange infos s e)
              (centroidBoundOfRange infos s e).max_dimension s e).2 = s ∨
            (split mode infos (centroidBoundOfRange infos s e)
              (boundsOfRange infos s e)
              (centroidBoundOfRange infos s e).max_dimension s e).2 = e
          · rw [if_pos h3]
            exact buildInv_leaf hs he hacc sp_len sp_take sp_drop sp_perm rfl rfl
          · rw [if_neg h3]
            set sp := split mode infos (centroidBoundOfRange infos s e)
              (boundsOfRange infos s e)
              (centroidBoundOfRange infos s e).max_dimension s e with hsp_def
            push_neg at h3
            obtain ⟨h3s, h3e⟩ := h3
            have hm1 : s < sp.2 := by omega
            have hm2 : sp.2 < e := by omega
            have hlfuel : sp.2 - s ≤ fuel := by omega
            have hle : sp.2 ≤ sp.1.length := by omega
            have hL := ih sp.1 s sp.2 acc (al + 1) hlfuel hm1 hle hacc
            set lres := recursive_build mode fuel sp.1 s sp.2 acc (al + 1)
              with hlres_def
            have hLorder : lres.order.length = sp.2 := by
              have hle2 : sp.2 ≤ lres.infos.length := by
                rw [hL.len_eq]
                exact hle
              rw [hL.order_eq, List.length_append, hacc, List.length_map,
                seg_length hle2]
              omega
            have hLlen : e ≤ lres.infos.length := by
              rw [hL.len_eq, sp_len]
              exact he
            have hrfuel : e - sp.2 ≤ fuel := by omega
            have hR := ih lres.infos sp.2 e lres.order lres.alloc hrfuel hm2
              hLlen hLorder
            set rres := recursive_build mode fuel lres.infos sp.2 e
              lres.order lres.alloc with hrres_def
            have hIr_len : rres.infos.length = infos.length := by
              rw [hR.len_eq, hL.len_eq, sp_len]
            -- the segment [s, sp.2) is untouched by the right recursion
            have hseg_lm : seg rres.infos s sp.2 = seg lres.infos s sp.2 :=
              seg_eq_of_take_eq hR.take_eq (le_refl sp.2)
            have hseg_me : seg lres.infos sp.2 e = seg sp.1 sp.2 e :=
              seg_eq_of_drop_eq hL.drop_eq (le_refl sp.2)
            have hsm : s ≤ sp.2 := le_of_lt hm1
            have hme : sp.2 ≤ e := le_of_lt hm2
            have hseg_split : seg rres.infos s e =
                seg rres.infos s sp.2 ++ seg rres.infos sp.2 e :=
              seg_append hsm hme
            have hR_perm : (seg rres.infos sp.2 e).Perm (seg sp.1 sp.2 e) := by
              rw [← hseg_me]
              exact hR.seg_perm
            have hperm_total : (seg rres.infos s e).Perm (seg infos s e) := by
              rw [hseg_split, hseg_lm]
              refine (List.Perm.append hL.seg_perm hR_perm).trans ?_
              rw [← seg_append hsm hme]
              exact sp_perm
            refine ⟨?_, ?_, ?_, hperm_total, ?_, ?_, ?_, ?_, ?_, ?_, ?_⟩
            · exact hIr_len
            · show rres.infos.take s = infos.take s
              have h₁ : rres.infos.take s = lres.infos.take s :=
                take_eq_of_take_eq hR.take_eq hsm
              rw [h₁, hL.take_eq, sp_take]
            · show rres.infos.drop e = infos.drop e
              have h₁ : lres.infos.drop e = sp.1.drop e :=
                drop_eq_of_drop_eq hL.drop_eq hme
              rw [hR.drop_eq, h₁, sp_drop]
            · show rres.order = acc ++ (seg rres.infos s e).map (fun r => r.element)
              rw [hR.order_eq, hL.order_eq, List.append_assoc, hseg_split,
                hseg_lm, List.map_append]
            · show (lres.tree.count + rres.tree.count : ℕ) = e - s
              rw [hL.count_eq, hR.count_eq]
              omega
            · show rres.alloc ≤ al + (2 * (e - s) - 1)
              have hA := hL.alloc_le
              have hB := hR.alloc_le
              omega
            · show Tiles (lres.tree.spansOf ++ rres.tree.spansOf) s e
              exact Tiles_append (hL.spans_tile) (hR.spans_tile)
            · intro x hx
              simp only [bvh_node.leavesOf, List.mem_append] at hx
              rcases hx with hx | hx
              · have hb := hL.leaf_bound x hx
                have hsp2 : x.2 ∈ lres.tree.spansOf := by
                  rw [spansOf_eq_map]
                  exact List.mem_map_of_mem _ hx
                have hbnd := Tiles_mem_bounds hL.spans_tile hsp2
                have hseg_eq : seg rres.infos x.2.1 (x.2.1 + x.2.2) =
                    seg lres.infos x.2.1 (x.2.1 + x.2.2) :=
                  seg_eq_of_take_eq hR.take_eq hbnd.2
                rw [hseg_eq]
                exact hb
              · exact hR.leaf_bound x hx
            · exact ⟨rfl, rfl, hL.wf, hR.wf⟩
            · show bound2.apply lres.tree.bound rres.tree.bound =
                merge_bounds ((seg rres.infos s e).map (fun r => r.bound))
              have hnel : (seg rres.infos s sp.2).map (fun r => r.bound) ≠ [] := by
                intro hcon
                have hlc := congrArg List.length hcon
                simp only [List.length_map, List.length_nil] at hlc
                have hlen2 : (seg rres.infos s sp.2).length = sp.2 - s :=
                  seg_length (by omega)
                omega
              have hner : (seg rres.infos sp.2 e).map (fun r => r.bound) ≠ [] := by
                intro hcon
                have hlc := congrArg List.length hcon
                simp only [List.length_map, List.length_nil] at hlc
                have hlen2 : (seg rres.infos sp.2 e).length = e - sp.2 :=
                  seg_length (by omega)
                omega
              rw [hseg_split, List.map_append, merge_bounds_append hnel hner]
              congr 1
              · rw [hseg_lm]
                exact hL.root_bound
              · exact hR.root_bound

/-! ### Top-level wrappers of the invariant -/

theorem seg_all {l : List bvh_element_info} {n : ℕ} (h : l.length = n) :
    seg l 0 n = l := by
  simp only [seg, List.drop_zero, Nat.sub_zero]
  rw [← h, List.take_length]

/-- The element-info array the constructor builds from the two input
sequences. -/
def mkInfos (bounds : List bound2) (elements : List ℕ) :
    List bvh_element_info :=
  (bounds.zip elements).map (fun p => ⟨p.1, p.2⟩)

theorem mkInfos_length (bounds : List bound2) (elements : List ℕ) :
    (mkInfos bounds elements).length = min bounds.length elements.length := by
  simp [mkInfos]

theorem mkInfos_map_element {bounds : List bound2} {elements : List ℕ}
    (hlen : bounds.length = elements.length) :
    (mkInfos bounds elements).map (fun r => r.element) = elements := by
  simp only [mkInfos, List.map_map]
  have h : ((fun r => bvh_element_info.element r) ∘ fun p : bound2 × ℕ =>
      (⟨p.1, p.2⟩ : bvh_element_info)) = Prod.snd := rfl
  rw [h]
  exact List.map_snd_zip bounds elements (le_of_eq hlen.symm)

theorem bvh_build_eq (bounds : List bound2) (elements : List ℕ)
    (mode : bvh_build_mode) :
    bvh_build bounds elements mode =
      recursive_build mode (mkInfos bounds elements).length
        (mkInfos bounds elements) 0 (mkInfos bounds elements).length [] 0 := rfl

theorem bvh_build_inv (bounds : List bound2) (elements : List ℕ)
    (mode : bvh_build_mode) (hN : 1 ≤ min bounds.length elements.length) :
    BuildInv (mkInfos bounds elements) 0 (mkInfos bounds elements).length [] 0
      (bvh_build bounds elements mode) := by
  rw [bvh_build_eq]
  exact build_inv mode (mkInfos bounds elements).length (mkInfos bounds elements)
    0 (mkInfos bounds elements).length [] 0 (by omega)
    (by rw [mkInfos_length]; omega) (le_refl _) rfl

/-! ### Claim C1: partition completeness -/

/-- C1: for every valid build input (equal, non-zero lengths) and every
build mode, the reordering buffer has final length N and is a
permutation of the input element list, and the leaf (offset, count)
spans tile [0, N) exactly, so concatenating every leaf's slice recovers
the whole buffer with no duplicates and no omissions. -/
theorem partition_completeness (bounds : List bound2) (elements : List ℕ)
    (mode : bvh_build_mode) (hlen : bounds.length = elements.length)
    (hN : 1 ≤ elements.length) :
    (bvh_accelerator.build bounds elements mode).elements_pool.length
        = elements.length ∧
    (bvh_accelerator.build bounds elements mode).elements_pool.Perm elements ∧
    Tiles (bvh_accelerator.build bounds elements mode).root.spansOf 0
      elements.length ∧
    (bvh_accelerator.build bounds elements mode).root.spansOf.flatMap
        (fun oc =>
          (((bvh_accelerator.build bounds elements mode).elements_pool).drop
            oc.1).take oc.2)
      = (bvh_accelerator.build bounds elements mode).elements_pool := by
  have hN' : 1 ≤ min bounds.length elements.length := by omega
  have hinv := bvh_build_inv bounds elements mode hN'
  have hn_eq : (mkInfos bounds elements).length = elements.length := by
    rw [mkInfos_length]
    omega
  have hroot : (bvh_accelerator.build bounds elements mode).root =
      (bvh_build bounds elements mode).tree := rfl
  have hpool : (bvh_accelerator.build bounds elements mode).elements_pool =
      (bvh_build bounds elements mode).order := rfl
  have hseg_out : seg (bvh_build bounds elements mode).infos 0
      (mkInfos bounds elements).length = (bvh_build bounds elements mode).infos :=
    seg_all hinv.len_eq
  have horder : (bvh_build bounds elements mode).order =
      ((bvh_build bounds elements mode).infos).map (fun r => r.element) := by
    have h := hinv.order_eq
    rw [hseg_out] at h
    simpa using h
  have hperm_infos : ((bvh_build bounds elements mode).infos).Perm
      (mkInfos bounds elements) := by
    have h := hinv.seg_perm
    rwa [hseg_out, seg_all rfl] at h
  have hpool_len : (bvh_accelerator.build bounds elements mode).elements_pool.length
      = elements.length := by
    rw [hpool, horder, List.length_map, hinv.len_eq, hn_eq]
  refine ⟨hpool_len, ?_, ?_, ?_⟩
  · rw [hpool, horder]
    have h₁ : (((bvh_build bounds elements mode).infos).map
        (fun r => r.element)).Perm ((mkInfos bounds elements).map
          (fun r => r.element)) := hperm_infos.map _
    rw [mkInfos_map_element hlen] at h₁
    exact h₁
  · have h := hinv.spans_tile
    rw [hn_eq] at h
    exact h
  · have h := hinv.spans_tile
    have hjoin := Tiles_join h (bvh_accelerator.build bounds elements mode).elements_pool
      (by rw [hpool_len, hn_eq])
    rw [hroot, hjoin, hn_eq, List.drop_zero, Nat.sub_zero, ← hpool_len,
      List.take_length]

/-- Concrete inputs used by the witnesses. -/
def wbounds : List bound2 :=
  [⟨⟨1, 1⟩, ⟨2, 2⟩⟩, ⟨⟨10, 1⟩, ⟨11, 2⟩⟩, ⟨⟨4, 1⟩, ⟨5, 2⟩⟩]

/-- Concrete element handles used by the witnesses. -/
def welements : List ℕ := [10, 11, 12]

theorem partition_completeness_witness :
    (bvh_accelerator.build wbounds welements .equal_counts).elements_pool.length
        = welements.length ∧
    (bvh_accelerator.build wbounds welements .equal_counts).elements_pool.Perm
        welements ∧
    Tiles (bvh_accelerator.build wbounds welements .equal_counts).root.spansOf 0
      welements.length ∧
    (bvh_accelerator.build wbounds welements .equal_counts).root.spansOf.flatMap
        (fun oc =>
          (((bvh_accelerator.build wbounds welements .equal_counts).elements_pool).drop
            oc.1).take oc.2)
      = (bvh_accelerator.build wbounds welements .equal_counts).elements_pool :=
  partition_completeness wbounds welements .equal_counts (by decide) (by decide)

/-! ### Claim C4: arena sufficiency -/

/-- C4: a build over N = min(|bounds|, |elements|) >= 1 records performs
at most 2N - 1 allocate() calls, and every allocator cursor value seen
by an allocate() call (the values 0 .. alloc-1) is strictly below the
arena capacity 2N fixed at construction, so the assertion
(count < max_count) never fails. -/
theorem arena_sufficiency (bounds : List bound2) (elements : List ℕ)
    (mode : bvh_build_mode) (hN : 1 ≤ min bounds.length elements.length) :
    (bvh_build bounds elements mode).alloc
        ≤ 2 * min bounds.length elements.length - 1 ∧
    ∀ k, k < (bvh_build bounds elements mode).alloc →
      k < 2 * min bounds.length elements.length := by
  have hinv := bvh_build_inv bounds elements mode hN
  have h := hinv.alloc_le
  rw [mkInfos_length] at h
  constructor
  · omega
  · intro k hk
    omega

theorem arena_sufficiency_witness :
    (bvh_build wbounds welements .surface_area_heuristic).alloc
        ≤ 2 * min wbounds.length welements.length - 1 ∧
    ∀ k, k < (bvh_build wbounds welements .surface_area_heuristic).alloc →
      k < 2 * min wbounds.length welements.length :=
  arena_sufficiency wbounds welements .surface_area_heuristic (by decide)

/-! ### Claim C10: silent truncation of mismatched inputs -/

/-- C10: the constructor performs no validation of the equal-length
precondition; with mismatched lengths (both at least 1) it is total
(raises nothing) and builds exactly the index of the first
min(|bounds|, |elements|) pairs, ignoring the surplus. -/
theorem mismatched_lengths_truncate (bounds : List bound2)
    (elements : List ℕ) (mode : bvh_build_mode)
    (hne : bounds.length ≠ elements.length)
    (hb : 1 ≤ bounds.length) (he : 1 ≤ elements.length) :
    bvh_accelerator.build bounds elements mode =
      bvh_accelerator.build
        (bounds.take (min bounds.length elements.length))
        (elements.take (min bounds.length elements.length)) mode := by
  unfold bvh_accelerator.build bvh_build
  rw [List.zip_eq_zip_take_min bounds elements]

theorem mismatched_lengths_truncate_witness :
    bvh_accelerator.build wbounds [7, 8] .equal_counts =
      bvh_accelerator.build
        (wbounds.take (min wbounds.length ([7, 8] : List ℕ).length))
        (([7, 8] : List ℕ).take (min wbounds.length ([7, 8] : List ℕ).length))
        .equal_counts :=
  mismatched_lengths_truncate wbounds [7, 8] .equal_counts (by decide)
    (by decide) (by decide)

/-! ### Claim C8: degenerate inputs -/

/-- C8: building with N = 1 produces a single leaf with offset 0 and
count 1 holding the input bound; and any recursive range of at least two
elements whose centroid bound is degenerate on the chosen split axis
(max extent equals min extent) is emitted as one leaf covering the whole
range, for every build mode. -/
theorem degenerate_inputs :
    (∀ (b : bound2) (el : ℕ) (mode : bvh_build_mode),
      bvh_accelerator.build [b] [el] mode =
        ⟨.leaf b 0 1, [el]⟩) ∧
    (∀ (mode : bvh_build_mode) (fuel : ℕ) (infos : List bvh_element_info)
        (s e : ℕ) (acc : List ℕ) (al : ℕ),
      2 ≤ e - s → 1 ≤ fuel →
      bound2.max_property (centroidBoundOfRange infos s e)
          (centroidBoundOfRange infos s e).max_dimension =
        bound2.min_property (centroidBoundOfRange infos s e)
          (centroidBoundOfRange infos s e).max_dimension →
      recursive_build mode fuel infos s e acc al =
        ⟨.leaf (boundsOfRange infos s e) acc.length (e - s), infos,
          acc ++ (seg infos s e).map (fun r => r.element), al + 1⟩) := by
  constructor
  · intro b el mode
    have hbb : boundsOfRange [⟨b, el⟩] 0 1 = b := by
      unfold boundsOfRange
      simp [List.range', getInfo, apply_self]
    have hstep : bvh_accelerator.build [b] [el] mode =
        ⟨.leaf (boundsOfRange [⟨b, el⟩] 0 1) 0 1, [el]⟩ := rfl
    rw [hstep, hbb]
  · intro mode fuel infos s e acc al h2 hf hdeg
    cases fuel with
    | zero => omega
    | succ f =>
        simp only [recursive_build]
        rw [if_neg (by omega), if_pos hdeg]

/-- Two records with identical bounds, hence coincident centroids. -/
def winfosC8 : List bvh_element_info :=
  [⟨⟨⟨1, 1⟩, ⟨3, 3⟩⟩, 3⟩, ⟨⟨⟨1, 1⟩, ⟨3, 3⟩⟩, 4⟩]

theorem degenerate_inputs_witness :
    bvh_accelerator.build [⟨⟨1, 1⟩, ⟨2, 2⟩⟩] [5] .middle =
      ⟨.leaf ⟨⟨1, 1⟩, ⟨2, 2⟩⟩ 0 1, [5]⟩ ∧
    recursive_build .middle 2 winfosC8 0 2 [] 0 =
      ⟨.leaf (boundsOfRange winfosC8 0 2) ([] : List ℕ).length (2 - 0),
        winfosC8, [] ++ (seg winfosC8 0 2).map (fun r => r.element), 0 + 1⟩ := by
  constructor
  · exact degenerate_inputs.1 ⟨⟨1, 1⟩, ⟨2, 2⟩⟩ 5 .middle
  · refine degenerate_inputs.2 .middle 2 winfosC8 0 2 [] 0 (by decide)
      (by decide) ?_
    norm_num [centroidBoundOfRange, List.range', getInfo, winfosC8,
      bound2.ofPoints, vec2.minv, vec2.maxv, bound2.apply_point,
      bound2.centroid, vec2.add, vec2.smul, bound2.max_dimension,
      bound2.max_property, bound2.min_property, vec2.nth]

/-! ### Claim C2: query soundness (no false negatives) -/

/-- C2: for every index built from a valid input, every input index i
and every query volume q, if the i-th input bound intersects q then
enumerate_contacts returns an (offset, count) range covering a position
of the reordering buffer that holds the i-th input element. -/
theorem query_soundness (bounds : List bound2) (elements : List ℕ)
    (mode : bvh_build_mode) (q : bound2) (i : ℕ)
    (hlen : bounds.length = elements.length) (hi : i < bounds.length)
    (hq : (bounds.getD i bound2.defaultBound).intersect q = true) :
    ∃ oc ∈ enumerate_contacts (bvh_accelerator.build bounds elements mode) q,
      ∃ p, oc.1 ≤ p ∧ p < oc.1 + oc.2 ∧
        p < (bvh_accelerator.build bounds elements mode).elements_pool.length ∧
        (bvh_accelerator.build bounds elements mode).elements_pool.getD p 0 =
          elements.getD i 0 := by
  have hN' : 1 ≤ min bounds.length elements.length := by omega
  have hinv := bvh_build_inv bounds elements mode hN'
  have hn : (mkInfos bounds elements).length = bounds.length := by
    rw [mkInfos_length]
    omega
  have hi' : i < (mkInfos bounds elements).length := by omega
  have hrb : ((mkInfos bounds elements).getD i default).bound =
      bounds.getD i bound2.defaultBound := by
    rw [List.getD_eq_getElem _ _ hi', List.getD_eq_getElem _ _ hi]
    simp [mkInfos, List.getElem_zip]
  have hre : ((mkInfos bounds elements).getD i default).element =
      elements.getD i 0 := by
    rw [List.getD_eq_getElem _ _ hi', List.getD_eq_getElem _ _ (by omega)]
    simp [mkInfos, List.getElem_zip]
  have hrmem : (mkInfos bounds elements).getD i default ∈ mkInfos bounds elements := by
    rw [List.getD_eq_getElem _ _ hi']
    exact List.getElem_mem hi'
  have hseg_out : seg (bvh_build bounds elements mode).infos 0
      (mkInfos bounds elements).length =
      (bvh_build bounds elements mode).infos := seg_all hinv.len_eq
  have hperm : ((bvh_build bounds elements mode).infos).Perm
      (mkInfos bounds elements) := by
    have h := hinv.seg_perm
    rwa [hseg_out, seg_all rfl] at h
  have hrmem2 : (mkInfos bounds elements).getD i default ∈
      (bvh_build bounds elements mode).infos :=
    hperm.symm.subset hrmem
  obtain ⟨p, hp, hpr⟩ := List.mem_iff_getElem.mp hrmem2
  have hpn : p < (mkInfos bounds elements).length := by
    rw [← hinv.len_eq]
    exact hp
  obtain ⟨oc, hoc_mem, hoc1, hoc2⟩ :=
    Tiles_cover hinv.spans_tile (Nat.zero_le p) hpn
  rw [spansOf_eq_map] at hoc_mem
  obtain ⟨x, hx, hx2⟩ := List.mem_map.mp hoc_mem
  have hocb := Tiles_mem_bounds hinv.spans_tile (by
    rw [spansOf_eq_map]
    exact List.mem_map_of_mem _ hx)
  rw [hx2] at hocb
  have hlb := hinv.leaf_bound x hx
  rw [hx2] at hlb
  have hoce : oc.1 + oc.2 ≤ (bvh_build bounds elements mode).infos.length := by
    rw [hinv.len_eq]
    exact hocb.2
  have hsegp : (seg (bvh_build bounds elements mode).infos oc.1
      (oc.1 + oc.2)).getD (p - oc.1) default =
      ((bvh_build bounds elements mode).infos).getD p default :=
    getD_seg hoc1 hoc2 hoce default
  have hsegmem : (mkInfos bounds elements).getD i default ∈
      seg (bvh_build bounds elements mode).infos oc.1 (oc.1 + oc.2) := by
    have hlenseg : (seg (bvh_build bounds elements mode).infos oc.1
        (oc.1 + oc.2)).length = oc.2 := by
      rw [seg_length hoce]
      omega
    have hidx : p - oc.1 < (seg (bvh_build bounds elements mode).infos oc.1
        (oc.1 + oc.2)).length := by omega
    have := hsegp
    rw [List.getD_eq_getElem _ _ hidx, List.getD_eq_getElem _ _ hp] at this
    rw [hpr] at this
    rw [← this]
    exact List.getElem_mem hidx
  have hcov : bound2.covers x.1 ((mkInfos bounds elements).getD i default).bound := by
    rw [hlb]
    exact covers_merge_mem (List.mem_map_of_mem _ hsegmem)
  have hrq : ((mkInfos bounds elements).getD i default).bound.intersect q = true := by
    rw [hrb]
    exact hq
  have hxq : x.1.intersect q = true := intersect_mono hcov hrq
  have henum := mem_enumerate_of_leaf hinv.wf hx hxq
  have hplen : (bvh_accelerator.build bounds elements mode).elements_pool.length =
      (mkInfos bounds elements).length := by
    show (bvh_build bounds elements mode).order.length = _
    rw [hinv.order_eq, hseg_out]
    simp [hinv.len_eq]
  refine ⟨x.2, henum, p, ?_, ?_, ?_, ?_⟩
  · rw [hx2]
    exact hoc1
  · rw [hx2]
    exact hoc2
  · omega
  · show (bvh_build bounds elements mode).order.getD p 0 = elements.getD i 0
    have horder : (bvh_build bounds elements mode).order =
        ((bvh_build bounds elements mode).infos).map (fun r => r.element) := by
      have h := hinv.order_eq
      rw [hseg_out] at h
      simpa using h
    have hp3 : p < (((bvh_build bounds elements mode).infos).map
        (fun r => r.element)).length := by
      rw [List.length_map]
      exact hp
    rw [horder, List.getD_eq_getElem _ _ hp3, List.getElem_map, hpr, hre]

theorem query_soundness_witness :
    ∃ oc ∈ enumerate_contacts
        (bvh_accelerator.build wbounds welements .surface_area_heuristic)
        ⟨⟨4, 1⟩, ⟨5, 2⟩⟩,
      ∃ p, oc.1 ≤ p ∧ p < oc.1 + oc.2 ∧
        p < (bvh_accelerator.build wbounds welements
          .surface_area_heuristic).elements_pool.length ∧
        (bvh_accelerator.build wbounds welements
          .surface_area_heuristic).elements_pool.getD p 0 =
          welements.getD 2 0 :=
  query_soundness wbounds welements .surface_area_heuristic ⟨⟨4, 1⟩, ⟨5, 2⟩⟩ 2
    (by decide) (by decide)
    (by norm_num [wbounds, bound2.intersect])

/-! ### Claim C3: tree structural invariants -/

/-- C3: in every constructed index, the final record array is a
permutation of the input records (volumes travel with their elements);
each leaf's bound is the exact merge of the volumes of its record slice;
each internal node (which has exactly two children by construction) has
bound equal to the merge of its children's bounds and cached count equal
to the sum of its children's counts (Wf); the root count is N; and the
internal-node count is the leaf-node count minus one (strict binary
tree). -/
theorem tree_invariants (bounds : List bound2) (elements : List ℕ)
    (mode : bvh_build_mode) (hlen : bounds.length = elements.length)
    (hN : 1 ≤ elements.length) :
    ((bvh_build bounds elements mode).infos).Perm (mkInfos bounds elements) ∧
    (∀ x ∈ (bvh_build bounds elements mode).tree.leavesOf,
      x.1 = merge_bounds
        ((seg (bvh_build bounds elements mode).infos x.2.1
          (x.2.1 + x.2.2)).map (fun r => r.bound))) ∧
    (bvh_build bounds elements mode).tree.Wf ∧
    (bvh_build bounds elements mode).tree.count = elements.length ∧
    (bvh_build bounds elements mode).tree.numInternal =
      (bvh_build bounds elements mode).tree.numLeaves - 1 := by
  have hN' : 1 ≤ min bounds.length elements.length := by omega
  have hinv := bvh_build_inv bounds elements mode hN'
  have hseg_out : seg (bvh_build bounds elements mode).infos 0
      (mkInfos bounds elements).length =
      (bvh_build bounds elements mode).infos := seg_all hinv.len_eq
  have hperm : ((bvh_build bounds elements mode).infos).Perm
      (mkInfos bounds elements) := by
    have h := hinv.seg_perm
    rwa [hseg_out, seg_all rfl] at h
  refine ⟨hperm, hinv.leaf_bound, hinv.wf, ?_,
    numInternal_eq_numLeaves_sub_one _⟩
  have h := hinv.count_eq
  have h2 := mkInfos_length bounds elements
  omega

theorem tree_invariants_witness :
    ((bvh_build wbounds welements .middle).infos).Perm
        (mkInfos wbounds welements) ∧
    (∀ x ∈ (bvh_build wbounds welements .middle).tree.leavesOf,
      x.1 = merge_bounds
        ((seg (bvh_build wbounds welements .middle).infos x.2.1
          (x.2.1 + x.2.2)).map (fun r => r.bound))) ∧
    (bvh_build wbounds welements .middle).tree.Wf ∧
    (bvh_build wbounds welements .middle).tree.count = welements.length ∧
    (bvh_build wbounds welements .middle).tree.numInternal =
      (bvh_build wbounds welements .middle).tree.numLeaves - 1 :=
  tree_invariants wbounds welements .middle (by decide) (by decide)

/-! ### Claim C9: the Equal-Counts strategy -/

/-- Three records with distinct centroids, used by the C9 witness. -/
def winfosC9 : List bvh_element_info :=
  [⟨⟨⟨4, 1⟩, ⟨5, 2⟩⟩, 0⟩, ⟨⟨⟨1, 1⟩, ⟨2, 2⟩⟩, 1⟩, ⟨⟨⟨10, 1⟩, ⟨11, 2⟩⟩, 2⟩]

/-- C9: on any range [s, e) with at least two elements, Equal-Counts
returns mid = s + (e-s)/2, strictly inside (s, e), so exactly
floor((e-s)/2) elements land in [s, mid); it permutes only the range;
and afterwards every element of [s, mid) has centroid value on the
chosen axis at most that of every element of [mid, e). -/
theorem equal_counts_split_spec (infos : List bvh_element_info)
    (cb bounds : bound2) (dim s e : ℕ)
    (h2 : s + 2 ≤ e) (he : e ≤ infos.length) :
    (split_equal_counts infos cb bounds dim s e).2 = s + (e - s) / 2 ∧
    s < (split_equal_counts infos cb bounds dim s e).2 ∧
    (split_equal_counts infos cb bounds dim s e).2 < e ∧
    (seg (split_equal_counts infos cb bounds dim s e).1 s e).Perm
      (seg infos s e) ∧
    ∀ i j, s ≤ i → i < (split_equal_counts infos cb bounds dim s e).2 →
      (split_equal_counts infos cb bounds dim s e).2 ≤ j → j < e →
      bound2.centroid_dim
          (((split_equal_counts infos cb bounds dim s e).1).getD i
            default).bound dim ≤
        bound2.centroid_dim
          (((split_equal_counts infos cb bounds dim s e).1).getD j
            default).bound dim := by
  have hs : s < e := by omega
  have hres : split_equal_counts infos cb bounds dim s e =
      ((replaceSeg infos s e ((seg infos s e).mergeSort
        (fun a b => decide (bound2.centroid_dim a.bound dim ≤
          bound2.centroid_dim b.bound dim)))), (s + e) / 2) := rfl
  rw [hres]
  set le : bvh_element_info → bvh_element_info → Bool :=
    fun a b => decide (bound2.centroid_dim a.bound dim ≤
      bound2.centroid_dim b.bound dim) with hle
  set sorted := (seg infos s e).mergeSort le with hsorted_def
  have hperm_sorted : sorted.Perm (seg infos s e) := List.mergeSort_perm _ _
  have hslen : sorted.length = e - s := by
    rw [hsorted_def, List.length_mergeSort, seg_length he]
  have hseg_res : seg (replaceSeg infos s e sorted) s e = sorted :=
    seg_replaceSeg hslen (by omega) he
  have hrlen : (replaceSeg infos s e sorted).length = infos.length :=
    length_replaceSeg hslen (by omega) he
  have hsortedp : List.Pairwise (fun a b => le a b = true) sorted := by
    apply List.sorted_mergeSort
    · intro a b c hab hbc
      simp only [hle, decide_eq_true_eq] at hab hbc ⊢
      exact le_trans hab hbc
    · intro a b
      simp only [hle, Bool.or_eq_true, decide_eq_true_eq]
      exact le_total _ _
  refine ⟨by omega, by omega, by omega, ?_, ?_⟩
  · rw [hseg_res]
    exact hperm_sorted
  · intro i j hsi himid hmidj hje
    have hie : i < e := by omega
    have hje2 : j < e := hje
    have hsj : s ≤ j := by omega
    have hgi : (seg (replaceSeg infos s e sorted) s e).getD (i - s) default =
        (replaceSeg infos s e sorted).getD i default :=
      getD_seg hsi hie (by omega) default
    have hgj : (seg (replaceSeg infos s e sorted) s e).getD (j - s) default =
        (replaceSeg infos s e sorted).getD j default :=
      getD_seg hsj hje2 (by omega) default
    rw [← hgi, ← hgj, hseg_res]
    have hilt : i - s < sorted.length := by omega
    have hjlt : j - s < sorted.length := by omega
    have hij : i - s < j - s := by omega
    have hpg := List.pairwise_iff_get.mp hsortedp ⟨i - s, hilt⟩ ⟨j - s, hjlt⟩
      (by exact hij)
    simp only [hle, decide_eq_true_eq] at hpg
    rw [List.getD_eq_getElem _ _ hilt, List.getD_eq_getElem _ _ hjlt]
    simpa [List.get_eq_getElem] using hpg

theorem equal_counts_split_spec_witness :
    (split_equal_counts winfosC9 bound2.defaultBound bound2.defaultBound
        0 0 3).2 = 0 + (3 - 0) / 2 ∧
    0 < (split_equal_counts winfosC9 bound2.defaultBound bound2.defaultBound
        0 0 3).2 ∧
    (split_equal_counts winfosC9 bound2.defaultBound bound2.defaultBound
        0 0 3).2 < 3 ∧
    (seg (split_equal_counts winfosC9 bound2.defaultBound bound2.defaultBound
        0 0 3).1 0 3).Perm (seg winfosC9 0 3) ∧
    ∀ i j, 0 ≤ i →
      i < (split_equal_counts winfosC9 bound2.defaultBound bound2.defaultBound
        0 0 3).2 →
      (split_equal_counts winfosC9 bound2.defaultBound bound2.defaultBound
        0 0 3).2 ≤ j → j < 3 →
      bound2.centroid_dim
          (((split_equal_counts winfosC9 bound2.defaultBound bound2.defaultBound
            0 0 3).1).getD i default).bound 0 ≤
        bound2.centroid_dim
          (((split_equal_counts winfosC9 bound2.defaultBound bound2.defaultBound
            0 0 3).1).getD j default).bound 0 :=
  equal_counts_split_spec winfosC9 bound2.defaultBound bound2.defaultBound
    0 0 3 (by decide) (by decide)

/-! ### Claim C5: the SAH small-range guard -/

/-- The default bucket_info, written out. -/
theorem default_bucket_eq : (default : bucket_info) =
    ⟨0, bound2.defaultBound⟩ := rfl

/-- Truncation of the integer literal 12, used while evaluating bucket
indices. -/
theorem toNat_twelve : Int.toNat 12 = 12 := rfl

/-- Three records whose range [0, 3) has 3 <= 4 elements; their
centroids on axis 0 are 1, 2 and 101. -/
def winfosC5 : List bvh_element_info :=
  [⟨⟨⟨1, 1⟩, ⟨1, 3⟩⟩, 0⟩, ⟨⟨⟨2, 1⟩, ⟨2, 3⟩⟩, 1⟩, ⟨⟨⟨101, 1⟩, ⟨101, 3⟩⟩, 2⟩]

/-- The centroid bound the builder would pass for winfosC5. -/
def wcbC5 : bound2 := ⟨⟨1, 2⟩, ⟨101, 2⟩⟩

/-- The full bound the builder would pass for winfosC5. -/
def wbC5 : bound2 := ⟨⟨1, 1⟩, ⟨101, 3⟩⟩

theorem wcbC5_eq : centroidBoundOfRange winfosC5 0 3 = wcbC5 := by
  norm_num [centroidBoundOfRange, List.range', getInfo, winfosC5, wcbC5,
    bound2.ofPoints, vec2.minv, vec2.maxv, bound2.apply_point,
    bound2.centroid, vec2.add, vec2.smul]

theorem wbC5_eq : boundsOfRange winfosC5 0 3 = wbC5 := by
  norm_num [boundsOfRange, List.range', getInfo, winfosC5, wbC5,
    bound2.apply, vec2.minv, vec2.maxv]

/-- The buckets the SAH strategy builds for winfosC5: two elements land
in bucket 0 and one in bucket 11. -/
def wbucketsC5 : List bucket_info :=
  [⟨2, ⟨⟨1, 1⟩, ⟨2, 3⟩⟩⟩, default, default, default, default, default,
   default, default, default, default, default, ⟨1, ⟨⟨101, 1⟩, ⟨101, 3⟩⟩⟩]

set_option maxHeartbeats 1000000 in
theorem wbucketsC5_eq : sah_buckets wcbC5 0 (seg winfosC5 0 3) = wbucketsC5 := by
  norm_num [sah_buckets, seg, winfosC5, wcbC5, wbucketsC5, bucketIndex,
    bound2.centroid_dim, bound2.centroid, bound2.min_property,
    bound2.max_property, vec2.nth, vec2.add, vec2.smul, bound2.apply,
    vec2.minv, vec2.maxv, bound2.defaultBound, fltMax, fltMin,
    default_bucket_eq, toNat_twelve, List.replicate, List.set, List.getD]

set_option maxHeartbeats 1600000 in
theorem wminC5_eq : sah_min wbucketsC5 wbC5 = (29 / 200, 0) := by
  norm_num [sah_min, cost_surface_area_heuristic, wbucketsC5, wbC5,
    List.range', bound2.apply, vec2.minv, vec2.maxv, bound2.surface_area,
    bound2.defaultBound, fltMax, fltMin, default_bucket_eq,
    List.take, List.drop]

/-- C5: the source's small-range short-circuit condition is
(start - end <= 4) on unsigned size_t values, which for start < end
wraps around to a huge value and is false; so on a 3-element range
(within the claimed threshold of 4) the strategy does perform bucket
binning and returns a partition index (2) different from the
Equal-Counts result (1) on the same arguments. -/
theorem sah_small_range_guard_dead :
    ¬ (usub 0 3 ≤ 4) ∧
    (split_surface_area_heuristic winfosC5 wcbC5 wbC5 0 0 3).2 = 2 ∧
    (split_equal_counts winfosC5 wcbC5 wbC5 0 0 3).2 = 1 := by
  have hguard : ¬ usub 0 3 ≤ 4 := by decide
  refine ⟨hguard, ?_, rfl⟩
  unfold split_surface_area_heuristic
  rw [if_neg hguard]
  simp only [wbucketsC5_eq, wminC5_eq]
  rw [if_pos (by norm_num [max_elements_per_node])]
  norm_num [seg, winfosC5, wcbC5, bucketIndex, bound2.centroid_dim,
    bound2.centroid, bound2.min_property, bound2.max_property, vec2.nth,
    vec2.add, vec2.smul, toNat_twelve, List.countP, List.countP.go]

/-! ### Claim C6: the SAH split-versus-leaf decision -/

/-- Two records engineered so that every bucket-boundary cost is exactly
2, the element count of the range. -/
def winfosC6 : List bvh_element_info :=
  [⟨⟨⟨1, 1⟩, ⟨16, 9⟩⟩, 0⟩, ⟨⟨⟨2, 1⟩, ⟨17, 9⟩⟩, 1⟩]

/-- The centroid bound the builder would pass for winfosC6. -/
def wcbC6 : bound2 := ⟨⟨17 / 2, 5⟩, ⟨19 / 2, 5⟩⟩

/-- The full bound the builder would pass for winfosC6. -/
def wbC6 : bound2 := ⟨⟨1, 1⟩, ⟨17, 9⟩⟩

theorem wcbC6_eq : centroidBoundOfRange winfosC6 0 2 = wcbC6 := by
  norm_num [centroidBoundOfRange, List.range', getInfo, winfosC6, wcbC6,
    bound2.ofPoints, vec2.minv, vec2.maxv, bound2.apply_point,
    bound2.centroid, vec2.add, vec2.smul]

theorem wbC6_eq : boundsOfRange winfosC6 0 2 = wbC6 := by
  norm_num [boundsOfRange, List.range', getInfo, winfosC6, wbC6,
    bound2.apply, vec2.minv, vec2.maxv]

/-- The buckets the SAH strategy builds for winfosC6. -/
def wbucketsC6 : List bucket_info :=
  [⟨1, ⟨⟨1, 1⟩, ⟨16, 9⟩⟩⟩, default, default, default, default, default,
   default, default, default, default, default, ⟨1, ⟨⟨2, 1⟩, ⟨17, 9⟩⟩⟩]

set_option maxHeartbeats 1000000 in
theorem wbucketsC6_eq : sah_buckets wcbC6 0 (seg winfosC6 0 2) = wbucketsC6 := by
  norm_num [sah_buckets, seg, winfosC6, wcbC6, wbucketsC6, bucketIndex,
    bound2.centroid_dim, bound2.centroid, bound2.min_property,
    bound2.max_property, vec2.nth, vec2.add, vec2.smul, bound2.apply,
    vec2.minv, vec2.maxv, bound2.defaultBound, fltMax, fltMin,
    default_bucket_eq, toNat_twelve, List.replicate, List.set, List.getD]

set_option maxHeartbeats 1600000 in
theorem wminC6_eq : sah_min wbucketsC6 wbC6 = (2, 0) := by
  norm_num [sah_min, cost_surface_area_heuristic, wbucketsC6, wbC6,
    List.range', bound2.apply, vec2.minv, vec2.maxv, bound2.surface_area,
    bound2.defaultBound, fltMax, fltMin, default_bucket_eq,
    List.take, List.drop]

/-- C6 counterexample: a binning-stage call whose minimum bucket cost
equals the leaf cost (both are 2) and whose count (2) does not exceed
max_elements_per_node; the strategy returns start, yet the claim's
condition, leaf cost strictly lower than the minimum bucket cost, is
false, so the claimed equivalence fails at this input. -/
theorem sah_leaf_decision_counterexample :
    (split_surface_area_heuristic winfosC6 wcbC6 wbC6 0 0 2).2 = 0 ∧
    (sah_min (sah_buckets wcbC6 0 (seg winfosC6 0 2)) wbC6).1 = 2 ∧
    2 - 0 ≤ max_elements_per_node ∧
    ¬ ((2 - 0 : ℕ) : ℚ) < (sah_min (sah_buckets wcbC6 0 (seg winfosC6 0 2)) wbC6).1 := by
  refine ⟨?_, ?_, by decide, ?_⟩
  · have hguard : ¬ usub 0 2 ≤ 4 := by decide
    unfold split_surface_area_heuristic
    rw [if_neg hguard]
    simp only [wbucketsC6_eq, wminC6_eq]
    rw [if_neg (by norm_num [max_elements_per_node])]
  · rw [wbucketsC6_eq, wminC6_eq]
  · rw [wbucketsC6_eq, wminC6_eq]
    norm_num

/-- C6 as amended: at the binning stage the strategy returns start
(emitting a leaf) iff the minimum bucket-boundary cost is NOT LOWER
than the leaf cost (so also at equality) and the count does not exceed
max_elements_per_node; otherwise it partitions the range by bucket
membership at the minimum-cost boundary and returns the resulting
index.  The hypothesis hmin (some element attains the centroid bound's
minimum on the axis) always holds for the builder's arguments. -/
theorem sah_split_versus_leaf (infos : List bvh_element_info)
    (cb bounds : bound2) (dim s e : ℕ)
    (hguard : ¬ usub s e ≤ 4) (hs : s < e) (he : e ≤ infos.length)
    (hmin : ∃ r ∈ seg infos s e,
      bound2.centroid_dim r.bound dim = bound2.min_property cb dim) :
    ((split_surface_area_heuristic infos cb bounds dim s e).2 = s ↔
      ¬ ((sah_min (sah_buckets cb dim (seg infos s e)) bounds).1 <
          ((e - s : ℕ) : ℚ)) ∧ e - s ≤ max_elements_per_node) ∧
    (((sah_min (sah_buckets cb dim (seg infos s e)) bounds).1 <
        ((e - s : ℕ) : ℚ) ∨ max_elements_per_node < e - s) →
      split_surface_area_heuristic infos cb bounds dim s e =
        (replaceSeg infos s e (stdPartition
          (fun info => decide (bucketIndex cb dim info.bound ≤
            (sah_min (sah_buckets cb dim (seg infos s e)) bounds).2))
          (seg infos s e)),
         s + (seg infos s e).countP
          (fun info => decide (bucketIndex cb dim info.bound ≤
            (sah_min (sah_buckets cb dim (seg infos s e)) bounds).2)))) := by
  obtain ⟨r, hr_mem, hr_eq⟩ := hmin
  have hr_bucket : bucketIndex cb dim r.bound = 0 := by
    simp only [bucketIndex]
    rw [hr_eq, sub_self, zero_div, mul_zero, Int.floor_zero]
    rfl
  unfold split_surface_area_heuristic
  rw [if_neg hguard]
  by_cases hcond : (sah_min (sah_buckets cb dim (seg infos s e)) bounds).1 <
      ((e - s : ℕ) : ℚ) ∨ max_elements_per_node < e - s
  · rw [if_pos hcond]
    have hcount : 0 < (seg infos s e).countP
        (fun info => decide (bucketIndex cb dim info.bound ≤
          (sah_min (sah_buckets cb dim (seg infos s e)) bounds).2)) := by
      rw [List.countP_pos_iff]
      exact ⟨r, hr_mem, by simp [hr_bucket]⟩
    refine ⟨?_, fun _ => rfl⟩
    show s + (seg infos s e).countP _ = s ↔ _
    constructor
    · intro h
      omega
    · intro h
      rcases hcond with hc | hc
      · exact absurd hc h.1
      · exact absurd hc (not_lt.mpr h.2)
  · rw [if_neg hcond]
    push_neg at hcond
    refine ⟨?_, ?_⟩
    · show s = s ↔ _
      constructor
      · intro _
        exact ⟨not_lt.mpr hcond.1, hcond.2⟩
      · intro _
        rfl
    · intro hc
      rcases hc with hc | hc
      · exact absurd hc (not_lt.mpr hcond.1)
      · exact absurd hc (not_lt.mpr hcond.2)

theorem sah_split_versus_leaf_witness :
    ((split_surface_area_heuristic winfosC6 wcbC6 wbC6 0 0 2).2 = 0 ↔
      ¬ ((sah_min (sah_buckets wcbC6 0 (seg winfosC6 0 2)) wbC6).1 <
          ((2 - 0 : ℕ) : ℚ)) ∧ 2 - 0 ≤ max_elements_per_node) ∧
    (((sah_min (sah_buckets wcbC6 0 (seg winfosC6 0 2)) wbC6).1 <
        ((2 - 0 : ℕ) : ℚ) ∨ max_elements_per_node < 2 - 0) →
      split_surface_area_heuristic winfosC6 wcbC6 wbC6 0 0 2 =
        (replaceSeg winfosC6 0 2 (stdPartition
          (fun info => decide (bucketIndex wcbC6 0 info.bound ≤
            (sah_min (sah_buckets wcbC6 0 (seg winfosC6 0 2)) wbC6).2))
          (seg winfosC6 0 2)),
         0 + (seg winfosC6 0 2).countP
          (fun info => decide (bucketIndex wcbC6 0 info.bound ≤
            (sah_min (sah_buckets wcbC6 0 (seg winfosC6 0 2)) wbC6).2)))) :=
  sah_split_versus_leaf winfosC6 wcbC6 wbC6 0 0 2 (by decide) (by decide)
    (by decide)
    ⟨⟨⟨⟨1, 1⟩, ⟨16, 9⟩⟩, 0⟩, by decide,
      by norm_num [bound2.centroid_dim, bound2.centroid, vec2.add, vec2.smul,
        vec2.nth, bound2.min_property, wcbC6]⟩

/-! ### Claim C7: the SAH cost formula and minimum-cost scan -/

/-- A bound that absorbs the default (FLT_MAX, FLT_MIN) seed: its min is
at most FLT_MAX and its max at least FLT_MIN, componentwise. Every
bucket bound produced by the binning loop satisfies this, because the
loop itself seeds every bucket from the default bound. -/
def seeded (b : bound2) : Prop :=
  b.min.x ≤ fltMax ∧ b.min.y ≤ fltMax ∧ fltMin ≤ b.max.x ∧ fltMin ≤ b.max.y

theorem apply_default_of_seeded {b : bound2} (h : seeded b) :
    bound2.apply bound2.defaultBound b = b := by
  obtain ⟨h1, h2, h3, h4⟩ := h
  simp only [bound2.apply, bound2.defaultBound, vec2.minv, vec2.maxv]
  cases b with
  | mk mn mx =>
      cases mn
      cases mx
      simp only at h1 h2 h3 h4
      congr 1 <;> simp only [vec2.mk.injEq]
      · exact ⟨min_eq_right h1, min_eq_right h2⟩
      · exact ⟨max_eq_right h3, max_eq_right h4⟩

/-- The accumulation step of cost_surface_area_heuristic. -/
def bucket_acc (acc b : bucket_info) : bucket_info :=
  ⟨acc.count + b.count, bound2.apply acc.bounds b.bounds⟩

theorem bucket_acc_lam_eq :
    (fun (acc b : bucket_info) =>
      (⟨acc.count + b.count, bound2.apply acc.bounds b.bounds⟩ : bucket_info)) =
    bucket_acc := rfl

theorem foldl_bucket_count (l : List bucket_info) (a : bucket_info) :
    (l.foldl bucket_acc a).count = a.count + (l.map (fun b => b.count)).sum := by
  induction l generalizing a with
  | nil => simp
  | cons b l ih =>
      simp only [List.foldl_cons, ih, List.map_cons, List.sum_cons, bucket_acc]
      omega

theorem foldl_bucket_bounds (l : List bucket_info) (a : bucket_info) :
    (l.foldl bucket_acc a).bounds =
      (l.map (fun b => b.bounds)).foldl bound2.apply a.bounds := by
  induction l generalizing a with
  | nil => rfl
  | cons b l ih =>
      simp only [List.foldl_cons, ih, List.map_cons, bucket_acc]

theorem foldl_apply_default_of_seeded {l : List bound2}
    (h : ∀ b ∈ l, seeded b) (hne : l ≠ []) :
    l.foldl bound2.apply bound2.defaultBound = merge_bounds l := by
  cases l with
  | nil => exact absurd rfl hne
  | cons b r =>
      simp only [List.foldl_cons, merge_bounds]
      rw [apply_default_of_seeded (h b (List.mem_cons_self _ _))]

/-- The scan step of the minimum-cost loop. -/
def sah_min_step (g : ℕ → ℚ) (mc : ℚ × ℕ) (i : ℕ) : ℚ × ℕ :=
  if mc.1 > g i then (g i, i) else mc

theorem sah_min_eq_fold (bks : List bucket_info) (bounds : bound2) :
    sah_min bks bounds =
      (List.range' 1 10).foldl
        (sah_min_step (cost_surface_area_heuristic bks bounds))
        (cost_surface_area_heuristic bks bounds 0, 0) := rfl

theorem fold_min_aux (g : ℕ → ℚ) (l : List ℕ) :
    ∀ (c0 : ℚ) (l0 : ℕ), c0 = g l0 →
      (l.foldl (sah_min_step g) (c0, l0)).1 =
        g (l.foldl (sah_min_step g) (c0, l0)).2 ∧
      ((l.foldl (sah_min_step g) (c0, l0)).2 = l0 ∨
        (l.foldl (sah_min_step g) (c0, l0)).2 ∈ l) ∧
      (l.foldl (sah_min_step g) (c0, l0)).1 ≤ c0 ∧
      ∀ j ∈ l, (l.foldl (sah_min_step g) (c0, l0)).1 ≤ g j := by
  induction l with
  | nil =>
      intro c0 l0 h0
      exact ⟨h0, Or.inl rfl, le_refl _, by simp⟩
  | cons i l ih =>
      intro c0 l0 h0
      simp only [List.foldl_cons]
      by_cases hlt : c0 > g i
      · have hstep : sah_min_step g (c0, l0) i = (g i, i) := by
          simp [sah_min_step, hlt]
        rw [hstep]
        obtain ⟨a1, a2, a3, a4⟩ := ih (g i) i rfl
        refine ⟨a1, ?_, le_trans a3 (le_of_lt hlt), ?_⟩
        · rcases a2 with h | h
          · refine Or.inr ?_
            rw [h]
            exact List.mem_cons_self _ _
          · exact Or.inr (List.mem_cons_of_mem _ h)
        · intro j hj
          rcases List.mem_cons.mp hj with rfl | hj
          · exact a3
          · exact a4 j hj
      · have hstep : sah_min_step g (c0, l0) i = (c0, l0) := by
          simp [sah_min_step, hlt]
        rw [hstep]
        obtain ⟨a1, a2, a3, a4⟩ := ih c0 l0 h0
        refine ⟨a1, ?_, a3, ?_⟩
        · rcases a2 with h | h
          · exact Or.inl h
          · exact Or.inr (List.mem_cons_of_mem _ h)
        · intro j hj
          rcases List.mem_cons.mp hj with rfl | hj
          · exact le_trans a3 (not_lt.mp hlt)
          · exact a4 j hj

/-- C7: for any 12-bucket array whose bucket bounds absorb the default
seed (true of every array the strategy builds), the cost at boundary k
in 0..10 is exactly 1/8 + (leftCount * leftMergedSurfaceArea +
rightCount * rightMergedSurfaceArea) / surfaceArea(node bound), where
the merged bounds are the plain merges of the bucket bounds on each
side; and the scan evaluates exactly the boundaries 0..10, returning a
boundary of minimum cost together with that cost. -/
theorem sah_cost_formula (bks : List bucket_info) (bounds : bound2) (k : ℕ)
    (hlen : bks.length = 12) (hk : k ≤ 10)
    (hseed : ∀ b ∈ bks, seeded b.bounds) :
    cost_surface_area_heuristic bks bounds k =
      1 / 8 + (((((bks.take (k + 1)).map (fun b => b.count)).sum : ℕ) : ℚ) *
          (merge_bounds ((bks.take (k + 1)).map
            (fun b => b.bounds))).surface_area +
        ((((bks.drop (k + 1)).map (fun b => b.count)).sum : ℕ) : ℚ) *
          (merge_bounds ((bks.drop (k + 1)).map
            (fun b => b.bounds))).surface_area) / bounds.surface_area ∧
    (sah_min bks bounds).2 ≤ 10 ∧
    (sah_min bks bounds).1 =
      cost_surface_area_heuristic bks bounds (sah_min bks bounds).2 ∧
    ∀ j, j ≤ 10 →
      (sah_min bks bounds).1 ≤ cost_surface_area_heuristic bks bounds j := by
  have hcost : ∀ m, m ≤ 10 → cost_surface_area_heuristic bks bounds m =
      1 / 8 + (((((bks.take (m + 1)).map (fun b => b.count)).sum : ℕ) : ℚ) *
          (merge_bounds ((bks.take (m + 1)).map
            (fun b => b.bounds))).surface_area +
        ((((bks.drop (m + 1)).map (fun b => b.count)).sum : ℕ) : ℚ) *
          (merge_bounds ((bks.drop (m + 1)).map
            (fun b => b.bounds))).surface_area) / bounds.surface_area := by
    intro m hm
    have htake_ne : (bks.take (m + 1)).map (fun b => b.bounds) ≠ [] := by
      intro hcon
      have hlc := congrArg List.length hcon
      simp only [List.length_map, List.length_take, List.length_nil] at hlc
      omega
    have hdrop_ne : (bks.drop (m + 1)).map (fun b => b.bounds) ≠ [] := by
      intro hcon
      have hlc := congrArg List.length hcon
      simp only [List.length_map, List.length_drop, List.length_nil] at hlc
      omega
    have htake_seed : ∀ b ∈ (bks.take (m + 1)).map (fun b => b.bounds),
        seeded b := by
      intro b hb
      obtain ⟨x, hx, rfl⟩ := List.mem_map.mp hb
      exact hseed x (List.take_subset _ _ hx)
    have hdrop_seed : ∀ b ∈ (bks.drop (m + 1)).map (fun b => b.bounds),
        seeded b := by
      intro b hb
      obtain ⟨x, hx, rfl⟩ := List.mem_map.mp hb
      exact hseed x (List.drop_subset _ _ hx)
    simp only [cost_surface_area_heuristic, bucket_acc_lam_eq,
      foldl_bucket_count, foldl_bucket_bounds, default_bucket_eq]
    rw [foldl_apply_default_of_seeded htake_seed htake_ne,
      foldl_apply_default_of_seeded hdrop_seed hdrop_ne]
    simp only [Nat.zero_add]
    ring
  have hmin := fold_min_aux (cost_surface_area_heuristic bks bounds)
    (List.range' 1 10) (cost_surface_area_heuristic bks bounds 0) 0 rfl
  obtain ⟨m1, m2, m3, m4⟩ := hmin
  rw [← sah_min_eq_fold] at m1 m2 m3 m4
  refine ⟨hcost k hk, ?_, m1, ?_⟩
  · rcases m2 with h | h
    · omega
    · have := List.mem_range'_1.mp h
      omega
  · intro j hj
    rcases Nat.eq_zero_or_pos j with rfl | hj1
    · exact m3
    · exact m4 j (List.mem_range'_1.mpr ⟨by omega, by omega⟩)

theorem sah_cost_formula_witness :
    cost_surface_area_heuristic (List.replicate 12 default) wbC6 0 =
      1 / 8 + ((((((List.replicate 12 (default : bucket_info)).take (0 + 1)).map
            (fun b => b.count)).sum : ℕ) : ℚ) *
          (merge_bounds (((List.replicate 12 (default : bucket_info)).take
            (0 + 1)).map (fun b => b.bounds))).surface_area +
        (((((List.replicate 12 (default : bucket_info)).drop (0 + 1)).map
            (fun b => b.count)).sum : ℕ) : ℚ) *
          (merge_bounds (((List.replicate 12 (default : bucket_info)).drop
            (0 + 1)).map (fun b => b.bounds))).surface_area) /
        wbC6.surface_area ∧
    (sah_min (List.replicate 12 default) wbC6).2 ≤ 10 ∧
    (sah_min (List.replicate 12 default) wbC6).1 =
      cost_surface_area_heuristic (List.replicate 12 default) wbC6
        (sah_min (List.replicate 12 default) wbC6).2 ∧
    ∀ j, j ≤ 10 →
      (sah_min (List.replicate 12 default) wbC6).1 ≤
        cost_surface_area_heuristic (List.replicate 12 default) wbC6 j :=
  sah_cost_formula (List.replicate 12 default) wbC6 0 (by decide) (by decide)
    (by
      intro b hb
      have h := List.eq_of_mem_replicate hb
      rw [h, default_bucket_eq]
      refine ⟨le_refl _, le_refl _, le_refl _, le_refl _⟩)

end AlgDat
